import Mathlib

/-!
# Block-list allocator (`updated.c` / `Final_Project.c`)

A shallow embedding of the allocator of `src/updated.c` (the allocator
functions of `src/Final_Project.c` are textually the same up to local variable
names and message texts).

Modelling conventions.

* The singly linked chain `allocator->head, ->next, ...` is the `List` of its
  nodes in link order; a node pointer (`current`, `bestFit`, `worstFit`) is the
  position of the node in that list.
* C `int` fields are `Int`.  On a chain that covers `[0, capacity)` every value
  the code computes lies in `[0, capacity]`, so no `int` operation leaves the
  range of the type when `capacity` is an `int`.  A statement about chains
  that need not be of this kind says which sums it needs to be values of type
  `int` (`INT_MAX`, `coalesceInRange`); signed overflow is undefined in C and
  nothing is stated about it.
* A `void*` is the integer value of the pointer; `NULL` is `0`.
  `(void*)(long)(x)` keeps the value of the `int` `x`, and `(int)(long)ptr`
  keeps the low 32 bits of the pointer (two's complement), see `ptrToInt`.
* `malloc` is assumed to succeed, so the `newBlock == NULL` branches are not
  taken.  The text written to `stderr` is not part of the state, except that
  `deallocateMemory` records which branch it left through.
* The mutex is not part of the chain state.  The order in which a public
  function locks, walks the chain and unlocks is described separately
  (`Effect`, `lockDiscipline`); threads are not modelled.
* The clock readings of `measurePerformance` are left out; the harness is
  the sequence of calls it makes (`Call`).
-/

namespace OSProject

/-! ## Data model -/

/-- The `MemoryBlock` struct without its `next` link. -/
structure MemoryBlock where
  start : Int
  size : Int
  allocated : Bool
deriving DecidableEq, Repr

/-- The value of the `NULL` pointer. -/
def NULL : Int := 0

/-- The largest value of a C `int`. -/
def INT_MAX : Int := 2147483647

/-- The smallest value of a C `int`. -/
def INT_MIN : Int := -2147483648

/-- The conversion `(int)(long)ptr`: the pointer value reduced to a signed 32-bit integer. -/
def ptrToInt (ptr : Int) : Int :=
  (ptr + 2147483648) % 4294967296 - 2147483648

/-- The strategy name accepted by the first branch of `allocateMemory`. -/
def FirstFit : String := "FirstFit"

/-- The strategy name accepted by the second branch of `allocateMemory`. -/
def BestFit : String := "BestFit"

/-- The strategy name accepted by the third branch of `allocateMemory`. -/
def WorstFit : String := "WorstFit"

/-! ## Operations -/

/-- The chain built by `initializeMemoryAllocator(size)`: one free block `[0, size)`. -/
def initializeMemoryAllocator (size : Int) : List MemoryBlock :=
  [{ start := 0, size := size, allocated := false }]

/-- The mutation shared by the three placement functions, applied to the chosen node `b`:
when `b.size > size` a new free node for the remainder is linked right after `b`;
then `b.size = size` and `b.allocated = true`. The result lists `b` and, if created,
the new node. The sum `b.start + size` and the difference `b.size - size` are exact; they
are the values of the `int` expressions whenever those do not overflow. -/
def splitBlock (b : MemoryBlock) (size : Int) : List MemoryBlock :=
  if b.size > size then
    [{ b with size := size, allocated := true },
     { start := b.start + size, size := b.size - size, allocated := false }]
  else
    [{ b with size := size, allocated := true }]

/-- The mutation of `splitBlock` applied in place to the node at position `i` of the chain. -/
def allocateAt : List MemoryBlock → Nat → Int → List MemoryBlock
  | [], _, _ => []
  | b :: rest, 0, size => splitBlock b size ++ rest
  | b :: rest, i + 1, size => b :: allocateAt rest i size

/-- Function `allocateFirstFit`: walk the chain from `current`; the first node that is free
and has `size >= size` is split and returned as `(void*)(long)start`; `NULL` with an
unchanged chain when the walk reaches the end. -/
def allocateFirstFit : List MemoryBlock → Int → Int × List MemoryBlock
  | [], _ => (NULL, [])
  | current :: rest, size =>
    if !current.allocated && current.size >= size then
      (current.start, splitBlock current size ++ rest)
    else
      ((allocateFirstFit rest size).1, current :: (allocateFirstFit rest size).2)

/-- The scanning loop of `allocateBestFit`. The arguments are the chain from `current` on,
the position of `current`, and `bestFit` (absent for `NULL`, otherwise the position and
the contents of the node it points to); the result is `bestFit` after the loop. -/
def bestFitLoop (size : Int) :
    List MemoryBlock → Nat → Option (Nat × MemoryBlock) → Option (Nat × MemoryBlock)
  | [], _, bestFit => bestFit
  | current :: rest, i, bestFit =>
    if !current.allocated && current.size >= size then
      match bestFit with
      | none => bestFitLoop size rest (i + 1) (some (i, current))
      | some (j, best) =>
        if current.size < best.size then bestFitLoop size rest (i + 1) (some (i, current))
        else bestFitLoop size rest (i + 1) (some (j, best))
    else bestFitLoop size rest (i + 1) bestFit

/-- The scanning loop of `allocateWorstFit`, with the arguments of `bestFitLoop`. -/
def worstFitLoop (size : Int) :
    List MemoryBlock → Nat → Option (Nat × MemoryBlock) → Option (Nat × MemoryBlock)
  | [], _, worstFit => worstFit
  | current :: rest, i, worstFit =>
    if !current.allocated && current.size >= size then
      match worstFit with
      | none => worstFitLoop size rest (i + 1) (some (i, current))
      | some (j, worst) =>
        if current.size > worst.size then worstFitLoop size rest (i + 1) (some (i, current))
        else worstFitLoop size rest (i + 1) (some (j, worst))
    else worstFitLoop size rest (i + 1) worstFit

/-- Function `allocateBestFit`: scan the whole chain, then split the node `bestFit` points
to and return its start, or return `NULL` with an unchanged chain when `bestFit == NULL`. -/
def allocateBestFit (chain : List MemoryBlock) (size : Int) : Int × List MemoryBlock :=
  match bestFitLoop size chain 0 none with
  | some (i, bestFit) => (bestFit.start, allocateAt chain i size)
  | none => (NULL, chain)

/-- Function `allocateWorstFit`: as `allocateBestFit`, with the scan of `worstFitLoop`. -/
def allocateWorstFit (chain : List MemoryBlock) (size : Int) : Int × List MemoryBlock :=
  match worstFitLoop size chain 0 none with
  | some (i, worstFit) => (worstFit.start, allocateAt chain i size)
  | none => (NULL, chain)

/-- The walk of `allocateFirstFit` without the mutation: the position and the contents of
the node at which the test `!current->allocated && current->size >= size` first succeeds,
for the chain from `current` on and the position `i` of `current`. -/
def firstFitLoop (size : Int) : List MemoryBlock → Nat → Option (Nat × MemoryBlock)
  | [], _ => none
  | current :: rest, i =>
    if !current.allocated && current.size >= size then some (i, current)
    else firstFitLoop size rest (i + 1)

/-- The node a call of `allocateMemory` selects (position and contents), absent when the
placement function returns through its out-of-memory exit or no strategy name matches. -/
def selectedBlock (chain : List MemoryBlock) (size : Int) (strategy : String) :
    Option (Nat × MemoryBlock) :=
  if strategy = FirstFit then firstFitLoop size chain 0
  else if strategy = BestFit then bestFitLoop size chain 0 none
  else if strategy = WorstFit then worstFitLoop size chain 0 none
  else none

/-- Function `allocateMemory`: dispatch on the strategy name with `strcmp`; `block` stays
`NULL` and the chain is untouched when no name matches. The result is the returned pointer
and the chain after the call. -/
def allocateMemory (chain : List MemoryBlock) (size : Int) (strategy : String) :
    Int × List MemoryBlock :=
  if strategy = FirstFit then allocateFirstFit chain size
  else if strategy = BestFit then allocateBestFit chain size
  else if strategy = WorstFit then allocateWorstFit chain size
  else (NULL, chain)

/-- The loop of `coalesceMemory` with `current` pointing at a node with contents `current`
and `rest` the chain after it: when `current` and the next node are both free the next node
is merged into `current` and the loop stays on `current`, otherwise it moves on. The sum
`current.size + nextBlock.size` is exact; it is the value of the `int` expression whenever
that does not overflow (`coalesceFromInRange`). -/
def coalesceFrom (current : MemoryBlock) : List MemoryBlock → List MemoryBlock
  | [] => [current]
  | nextBlock :: rest =>
    if !current.allocated && !nextBlock.allocated then
      coalesceFrom { current with size := current.size + nextBlock.size } rest
    else
      current :: coalesceFrom nextBlock rest

/-- Function `coalesceMemory`: the merging loop started at the head of the chain. -/
def coalesceMemory : List MemoryBlock → List MemoryBlock
  | [] => []
  | head :: rest => coalesceFrom head rest

/-- Whether every addition `current->size += nextBlock->size` that the loop of
`coalesceMemory` makes from `current` on gives a value of type `int`, so that none of them
overflows. -/
def coalesceFromInRange (current : MemoryBlock) : List MemoryBlock → Bool
  | [] => true
  | nextBlock :: rest =>
    if !current.allocated && !nextBlock.allocated then
      decide (INT_MIN ≤ current.size + nextBlock.size) &&
        decide (current.size + nextBlock.size ≤ INT_MAX) &&
        coalesceFromInRange { current with size := current.size + nextBlock.size } rest
    else
      coalesceFromInRange nextBlock rest

/-- Whether no addition made by `coalesceMemory` on the chain overflows the type `int`. -/
def coalesceInRange : List MemoryBlock → Bool
  | [] => true
  | head :: rest => coalesceFromInRange head rest

/-- The search loop of `deallocateMemory`: the first node with `start == start` that is
allocated gets `allocated = false`; `none` when the walk reaches the end of the chain. -/
def markFree (start : Int) : List MemoryBlock → Option (List MemoryBlock)
  | [] => none
  | current :: rest =>
    if current.start = start && current.allocated then
      some ({ current with allocated := false } :: rest)
    else
      (markFree start rest).map (fun tail => current :: tail)

/-- What a call of `deallocateMemory` leaves behind: the chain, and whether the call left
through the branch that reports the error ("Error: Invalid pointer"). -/
structure DeallocResult where
  chain : List MemoryBlock
  invalid : Bool
deriving DecidableEq, Repr

/-- Function `deallocateMemory`: decode the pointer, free the first allocated node with that
start and coalesce the whole chain; when there is no such node, report the error and leave
the chain as it is. -/
def deallocateMemory (chain : List MemoryBlock) (ptr : Int) : DeallocResult :=
  match markFree (ptrToInt ptr) chain with
  | some freed => { chain := coalesceMemory freed, invalid := false }
  | none => { chain := chain, invalid := true }

/-! ## Sequences of calls -/

/-- One call of the public interface. -/
inductive Op where
  | alloc (size : Int) (strategy : String)
  | dealloc (ptr : Int)
deriving DecidableEq, Repr

/-- The chain after one call. -/
def step (chain : List MemoryBlock) : Op → List MemoryBlock
  | Op.alloc size strategy => (allocateMemory chain size strategy).2
  | Op.dealloc ptr => (deallocateMemory chain ptr).chain

/-- The chain after a sequence of calls on the allocator made by
`initializeMemoryAllocator(capacity)`. -/
def run (capacity : Int) (ops : List Op) : List MemoryBlock :=
  ops.foldl step (initializeMemoryAllocator capacity)

/-- The calls the specification allows: an allocation of a positive size with one of the
three strategy names, or a deallocation of any pointer. -/
def Op.valid : Op → Prop
  | Op.alloc size strategy =>
    0 < size ∧ (strategy = FirstFit ∨ strategy = BestFit ∨ strategy = WorstFit)
  | Op.dealloc _ => True

instance (op : Op) : Decidable op.valid := by
  cases op <;> unfold Op.valid <;> infer_instance

/-! ## Predicates of the specification -/

/-- A block an allocation of `size` may choose: free and large enough. -/
def Candidate (size : Int) (b : MemoryBlock) : Prop :=
  b.allocated = false ∧ size ≤ b.size

instance (size : Int) (b : MemoryBlock) : Decidable (Candidate size b) := by
  unfold Candidate; infer_instance

/-- Every two consecutive blocks of the chain, in chain order, are related by `R`. -/
def Consecutive (R : MemoryBlock → MemoryBlock → Prop) : List MemoryBlock → Prop
  | [] => True
  | [_] => True
  | a :: b :: rest => R a b ∧ Consecutive R (b :: rest)

instance Consecutive.instDecidable (R : MemoryBlock → MemoryBlock → Prop)
    [inst : ∀ a b, Decidable (R a b)] : ∀ chain, Decidable (Consecutive R chain)
  | [] => isTrue trivial
  | [_] => isTrue trivial
  | a :: b :: rest =>
    match inst a b, Consecutive.instDecidable R (b :: rest) with
    | isTrue h, isTrue t => isTrue ⟨h, t⟩
    | isFalse h, _ => isFalse (fun c => h c.1)
    | _, isFalse t => isFalse (fun c => t c.2)

/-- The chain is well formed for `capacity`: the first block starts at `0`, every block has
a positive size, each block ends where the next one starts, and the last block ends at
`capacity`. -/
structure WellFormed (capacity : Int) (chain : List MemoryBlock) : Prop where
  first : chain.head?.map (fun b => b.start) = some 0
  positive : ∀ b ∈ chain, 0 < b.size
  adjacent : Consecutive (fun a b => a.start + a.size = b.start) chain
  last : chain.getLast?.map (fun b => b.start + b.size) = some capacity

instance (capacity : Int) (chain : List MemoryBlock) : Decidable (WellFormed capacity chain) :=
  decidable_of_iff
    (chain.head?.map (fun b => b.start) = some 0 ∧ (∀ b ∈ chain, 0 < b.size) ∧
      Consecutive (fun a b => a.start + a.size = b.start) chain ∧
      chain.getLast?.map (fun b => b.start + b.size) = some capacity)
    ⟨fun h => ⟨h.1, h.2.1, h.2.2.1, h.2.2.2⟩, fun h => ⟨h.first, h.positive, h.adjacent, h.last⟩⟩

/-- No two consecutive blocks of the chain are both free. -/
def NoAdjacentFree (chain : List MemoryBlock) : Prop :=
  Consecutive (fun a b => ¬ (a.allocated = false ∧ b.allocated = false)) chain

instance (chain : List MemoryBlock) : Decidable (NoAdjacentFree chain) := by
  unfold NoAdjacentFree; infer_instance

/-! ## Coalescing as the specification words it -/

/-- The chain the specification describes as the result of coalescing: an allocated block is
kept as it is, and a free block together with the free blocks that follow it without
interruption (a maximal run of free blocks) is replaced by one free block with the start of
the first block of the run and the sum of the sizes of the run. -/
def specCoalesce : List MemoryBlock → List MemoryBlock
  | [] => []
  | b :: rest =>
    if b.allocated then b :: specCoalesce rest
    else
      { b with size := b.size +
          ((rest.takeWhile (fun x => !x.allocated)).map (fun x => x.size)).sum } ::
        specCoalesce (rest.dropWhile (fun x => !x.allocated))
termination_by chain => chain.length
decreasing_by
  · simp
  · simp only [List.length_cons]
    exact Nat.lt_succ_of_le (List.dropWhile_sublist _).length_le

/-- The sum of the sizes of the blocks of the chain. -/
def totalSize (chain : List MemoryBlock) : Int :=
  (chain.map (fun b => b.size)).sum

/-- The number of free blocks of the chain. -/
def countFree (chain : List MemoryBlock) : Nat :=
  (chain.filter (fun b => !b.allocated)).length

/-! ## The demo driver -/

/-- The constant `MEMORY_SIZE`. -/
def MEMORY_SIZE : Int := 1024

/-- The First Fit script of `main` in `updated.c`: the chain after
`initializeMemoryAllocator(MEMORY_SIZE)` and after each of the seven calls that follow, in
order. The pointers given to `deallocateMemory` are the ones the earlier calls returned
(`blocks[1]`, then `blocks[0]`). -/
def mainFirstFit : List (List MemoryBlock) :=
  let allocator := initializeMemoryAllocator MEMORY_SIZE
  let blocks0 := allocateMemory allocator 100 FirstFit
  let blocks1 := allocateMemory blocks0.2 200 FirstFit
  let blocks2 := allocateMemory blocks1.2 50 FirstFit
  let freed1 := deallocateMemory blocks2.2 blocks1.1
  let blocks3 := allocateMemory freed1.chain 75 FirstFit
  let freed0 := deallocateMemory blocks3.2 blocks0.1
  let blocks4 := allocateMemory freed0.chain 125 FirstFit
  [allocator, blocks0.2, blocks1.2, blocks2.2, freed1.chain, blocks3.2, freed0.chain,
    blocks4.2]

/-- The free capacity of a chain: the sum of the sizes of its free blocks. -/
def freeCapacity (chain : List MemoryBlock) : Int :=
  ((chain.filter (fun b => !b.allocated)).map (fun b => b.size)).sum

/-! ## The timing harness -/

/-- One call the timing harness makes: `allocateMemory` with the requested size and the
pointer it returned, or `deallocateMemory` with the pointer it was given. -/
inductive Call where
  | allocate (size : Int) (block : Int)
  | deallocate (block : Int)
deriving DecidableEq, Repr

/-- The `for` loop of `measurePerformance` in `updated.c`, with `remaining` iterations to go
from iteration `i` on: the calls it makes, in order, and the chain it leaves. The size is
`blockSizes[i % numSizes]`. Where C leaves the behaviour undefined, the division by
`numSizes == 0` and a read outside the array, the definition takes the remainder `i` and the
size 0; the statements about the loop are made for `numSizes > 0` and reads inside the
array. -/
def measureLoop (strategy : String) (blockSizes : List Int) (numSizes : Int) :
    Nat → Nat → List MemoryBlock → List Call × List MemoryBlock
  | 0, _, chain => ([], chain)
  | remaining + 1, i, chain =>
    let size := blockSizes.getD (Int.tmod i numSizes).toNat 0
    let block := allocateMemory chain size strategy
    if block.1 ≠ NULL then
      let later := measureLoop strategy blockSizes numSizes remaining (i + 1)
        (deallocateMemory block.2 block.1).chain
      (Call.allocate size block.1 :: Call.deallocate block.1 :: later.1, later.2)
    else
      let later := measureLoop strategy blockSizes numSizes remaining (i + 1) block.2
      (Call.allocate size block.1 :: later.1, later.2)

/-- Function `measurePerformance` of `updated.c` without the clock readings: the calls made
by the loop `for (i = 0; i < numBlocks; i++)` and the chain left behind. -/
def measurePerformance (chain : List MemoryBlock) (strategy : String) (blockSizes : List Int)
    (numBlocks numSizes : Int) : List Call × List MemoryBlock :=
  measureLoop strategy blockSizes numSizes numBlocks.toNat 0 chain

/-- The `for` loop of `measurePerformance` in `Final_Project.c`, with `remaining` iterations
to go: it leaves the loop with `break` when `allocateMemory` returns `NULL`. -/
def FinalProject.measureLoop (strategy : String) (blockSize : Int) :
    Nat → List MemoryBlock → List Call × List MemoryBlock
  | 0, chain => ([], chain)
  | remaining + 1, chain =>
    let block := allocateMemory chain blockSize strategy
    if block.1 = NULL then
      ([Call.allocate blockSize block.1], block.2)
    else
      let later := FinalProject.measureLoop strategy blockSize remaining
        (deallocateMemory block.2 block.1).chain
      (Call.allocate blockSize block.1 :: Call.deallocate block.1 :: later.1, later.2)

/-- Function `measurePerformance` of `Final_Project.c` without the clock readings. -/
def FinalProject.measurePerformance (chain : List MemoryBlock) (strategy : String)
    (blockSize numBlocks : Int) : List Call × List MemoryBlock :=
  FinalProject.measureLoop strategy blockSize numBlocks.toNat chain

/-- The harness stops at a failed allocation: an `allocateMemory` call that returned `NULL`
is the last call of the sequence. -/
def StopsAtFailure : List Call → Prop
  | [] => True
  | Call.allocate _ block :: rest => (block = NULL → rest = []) ∧ StopsAtFailure rest
  | Call.deallocate _ :: rest => StopsAtFailure rest

instance StopsAtFailure.instDecidable : ∀ calls, Decidable (StopsAtFailure calls)
  | [] => isTrue trivial
  | Call.allocate _ block :: rest =>
    match StopsAtFailure.instDecidable rest with
    | isTrue t =>
      if h : block = NULL → rest = [] then isTrue ⟨h, t⟩ else isFalse (fun c => h c.1)
    | isFalse t => isFalse (fun c => t c.2)
  | Call.deallocate _ :: rest => StopsAtFailure.instDecidable rest

/-- The calls of one iteration of the loop in `updated.c` that asked for `size` and got
`block`: the allocation, followed by the deallocation of `block` unless `block` is `NULL`. -/
def iterationCalls (request : Int × Int) : List Call :=
  if request.2 ≠ NULL then [Call.allocate request.1 request.2, Call.deallocate request.2]
  else [Call.allocate request.1 request.2]

/-! ## The mutex -/

/-- What a function does with the mutex and the chain, in program order:
`pthread_mutex_lock(&allocator->lock)`, `pthread_mutex_unlock(&allocator->lock)`, or a walk
over the nodes of the chain that reads or writes them. -/
inductive Effect where
  | lock
  | unlock
  | walk
deriving DecidableEq, Repr

/-- The effects of a call of `allocateMemory`, in program order: lock, the call of the
placement function chosen by the strategy name (none when no name matches), unlock. -/
def allocateMemoryEffects (strategy : String) : List Effect :=
  [Effect.lock] ++
    (if strategy = FirstFit then [Effect.walk]
     else if strategy = BestFit then [Effect.walk]
     else if strategy = WorstFit then [Effect.walk]
     else []) ++
    [Effect.unlock]

/-- The effects of a call of `deallocateMemory`, in program order: lock, the search loop,
then on success `coalesceMemory` and unlock, and on failure unlock after the error report. -/
def deallocateMemoryEffects (chain : List MemoryBlock) (ptr : Int) : List Effect :=
  match markFree (ptrToInt ptr) chain with
  | some _ => [Effect.lock, Effect.walk, Effect.walk, Effect.unlock]
  | none => [Effect.lock, Effect.walk, Effect.unlock]

/-- Function `printMemoryBlocks`: the lines it prints, one `(start, size, allocated)` per
node in chain order. -/
def printMemoryBlocks (chain : List MemoryBlock) : List (Int × Int × Bool) :=
  chain.map (fun current => (current.start, current.size, current.allocated))

/-- The effects of a call of `printMemoryBlocks`, in program order: the walk over the chain
from `allocator->head`; the function calls neither `pthread_mutex_lock` nor
`pthread_mutex_unlock`. -/
def printMemoryBlocksEffects : List Effect :=
  [Effect.walk]

/-- Whether every walk over the chain in a sequence of effects happens with the mutex held,
the mutex is never locked while held nor unlocked while free, and it is free at the end;
`held` says whether the mutex is held at the start. -/
def lockDiscipline (held : Bool) : List Effect → Bool
  | [] => !held
  | Effect.lock :: rest => !held && lockDiscipline true rest
  | Effect.unlock :: rest => held && lockDiscipline false rest
  | Effect.walk :: rest => held && lockDiscipline held rest

/-! ## The loop of `coalesceMemory`, one iteration at a time -/

/-- The state of the loop of `coalesceMemory`: the nodes before `current`, in chain order,
and the nodes from `current` on (`remaining` is empty when `current == NULL`). -/
structure CoalesceState where
  passed : List MemoryBlock
  remaining : List MemoryBlock
deriving DecidableEq, Repr

/-- One iteration of the loop of `coalesceMemory`; `none` when the loop condition
`current != NULL && current->next != NULL` fails. -/
def coalesceIteration (s : CoalesceState) : Option CoalesceState :=
  match s.remaining with
  | current :: nextBlock :: rest =>
    if !current.allocated && !nextBlock.allocated then
      some { passed := s.passed,
             remaining := { current with size := current.size + nextBlock.size } :: rest }
    else
      some { passed := s.passed ++ [current], remaining := nextBlock :: rest }
  | _ => none

/-- The loop of `coalesceMemory` run for at most `fuel` iterations: the number of iterations
made and the chain at the exit of the loop, or `none` when the loop has not exited after
`fuel` iterations. -/
def coalesceLoop : Nat → CoalesceState → Option (Nat × List MemoryBlock)
  | 0, s =>
    match coalesceIteration s with
    | none => some (0, s.passed ++ s.remaining)
    | some _ => none
  | fuel + 1, s =>
    match coalesceIteration s with
    | none => some (0, s.passed ++ s.remaining)
    | some next => (coalesceLoop fuel next).map (fun r => (r.1 + 1, r.2))

/-! ## Strategy names that `allocateMemory` does not know -/

/-- A strategy name that differs from `FirstFit` only in the case of two letters. -/
def lowerCaseFirstFit : String := "firstfit"

/-! ## Auxiliary definitions used in the proofs -/

/-- The blocks of `chain` have positive sizes, lie end to start, begin at `s` and end at
`capacity`. -/
def Covers (capacity : Int) : Int → List MemoryBlock → Prop
  | s, [] => s = capacity
  | s, b :: rest => b.start = s ∧ 0 < b.size ∧ Covers capacity (s + b.size) rest

/-- The common shape of the two scanning loops: among the candidates keep the first one whose
`key` is least. `bestFitLoop` is the instance with key `size`, `worstFitLoop` the one with
key `-size` (lemmas `bestFitLoop_eq` and `worstFitLoop_eq`). -/
def fitLoop (key : MemoryBlock → Int) (size : Int) :
    List MemoryBlock → Nat → Option (Nat × MemoryBlock) → Option (Nat × MemoryBlock)
  | [], _, chosen => chosen
  | current :: rest, i, chosen =>
    if !current.allocated && current.size >= size then
      match chosen with
      | none => fitLoop key size rest (i + 1) (some (i, current))
      | some (j, best) =>
        if key current < key best then fitLoop key size rest (i + 1) (some (i, current))
        else fitLoop key size rest (i + 1) (some (j, best))
    else fitLoop key size rest (i + 1) chosen

/-! ## Lemmas on the predicates -/

theorem consecutive_cons (R : MemoryBlock → MemoryBlock → Prop) (a : MemoryBlock)
    (l : List MemoryBlock) :
    Consecutive R (a :: l) ↔ (∀ h, l.head? = some h → R a h) ∧ Consecutive R l := by
  cases l with
  | nil => simp [Consecutive]
  | cons b rest => simp [Consecutive]

theorem covers_iff (capacity : Int) :
    ∀ (chain : List MemoryBlock) (s : Int), chain ≠ [] →
      (Covers capacity s chain ↔
        chain.head?.map (fun b => b.start) = some s ∧ (∀ b ∈ chain, 0 < b.size) ∧
        Consecutive (fun a b => a.start + a.size = b.start) chain ∧
        chain.getLast?.map (fun b => b.start + b.size) = some capacity) := by
  intro chain
  induction chain with
  | nil => intro s h; exact absurd rfl h
  | cons b rest ih =>
    intro s _
    cases rest with
    | nil =>
      simp only [Covers, List.head?_cons, Option.map_some', Option.some.injEq, List.mem_singleton,
        forall_eq, Consecutive, List.getLast?_singleton, true_and]
      constructor
      · rintro ⟨h1, h2, h3⟩; exact ⟨h1, h2, by rw [h1]; exact h3⟩
      · rintro ⟨h1, h2, h3⟩; exact ⟨h1, h2, by rw [← h1]; exact h3⟩
    | cons b2 rest2 =>
      have ih2 := ih (s + b.size) (by simp)
      simp only [Covers] at ih2 ⊢
      rw [ih2]
      simp only [List.head?_cons, Option.map_some', Option.some.injEq, List.mem_cons,
        forall_eq_or_imp, Consecutive, List.getLast?_cons_cons]
      constructor
      · rintro ⟨h1, h2, h3, ⟨h4, h5⟩, h6, h7⟩
        exact ⟨h1, ⟨h2, h4, h5⟩, ⟨by rw [h1]; exact h3.symm, h6⟩, h7⟩
      · rintro ⟨h1, ⟨h2, h4, h5⟩, ⟨h3, h6⟩, h7⟩
        exact ⟨h1, h2, by rw [← h1]; exact h3.symm, ⟨h4, h5⟩, h6, h7⟩

theorem wellFormed_iff (capacity : Int) (chain : List MemoryBlock) :
    WellFormed capacity chain ↔ chain ≠ [] ∧ Covers capacity 0 chain := by
  constructor
  · intro h
    have hne : chain ≠ [] := by
      intro he
      have := h.first
      simp [he] at this
    exact ⟨hne, (covers_iff capacity chain 0 hne).2 ⟨h.first, h.positive, h.adjacent, h.last⟩⟩
  · rintro ⟨hne, hc⟩
    obtain ⟨h1, h2, h3, h4⟩ := (covers_iff capacity chain 0 hne).1 hc
    exact ⟨h1, h2, h3, h4⟩

/-! ## Lemmas on the split -/

theorem allocateAt_eq_take_drop :
    ∀ (chain : List MemoryBlock) (i : Nat) (b : MemoryBlock) (size : Int),
      chain[i]? = some b →
      allocateAt chain i size = chain.take i ++ splitBlock b size ++ chain.drop (i + 1) := by
  intro chain
  induction chain with
  | nil => intro i b size h; simp at h
  | cons a rest ih =>
    intro i b size h
    cases i with
    | zero =>
      simp only [List.getElem?_cons_zero, Option.some.injEq] at h
      subst h
      simp [allocateAt]
    | succ k =>
      simp only [List.getElem?_cons_succ] at h
      simp [allocateAt, ih k b size h]

theorem covers_splitBlock (capacity s : Int) (b : MemoryBlock) (rest : List MemoryBlock)
    (size : Int) (hsize : 0 < size) (hle : size ≤ b.size)
    (h : Covers capacity s (b :: rest)) :
    Covers capacity s (splitBlock b size ++ rest) := by
  obtain ⟨h1, _, h3⟩ := h
  unfold splitBlock
  split
  · rename_i hgt
    have e : s + size + (b.size - size) = s + b.size := by ring
    simp only [List.cons_append, List.nil_append, Covers, h1, e]
    exact ⟨trivial, hsize, trivial, by linarith, h3⟩
  · rename_i hgt
    have e : size = b.size := le_antisymm hle (not_lt.mp hgt)
    simp only [List.cons_append, List.nil_append, Covers, h1]
    exact ⟨trivial, hsize, by rw [e]; exact h3⟩

theorem covers_allocateAt (capacity : Int) (size : Int) (hsize : 0 < size) :
    ∀ (chain : List MemoryBlock) (i : Nat) (b : MemoryBlock) (s : Int),
      chain[i]? = some b → size ≤ b.size → Covers capacity s chain →
      Covers capacity s (allocateAt chain i size) := by
  intro chain
  induction chain with
  | nil => intro i b s h; simp at h
  | cons a rest ih =>
    intro i b s h hle hc
    cases i with
    | zero =>
      simp only [List.getElem?_cons_zero, Option.some.injEq] at h
      subst h
      exact covers_splitBlock capacity s a rest size hsize hle hc
    | succ k =>
      simp only [List.getElem?_cons_succ] at h
      obtain ⟨h1, h2, h3⟩ := hc
      exact ⟨h1, h2, ih k b (s + a.size) h hle h3⟩

theorem allocateAt_ne_nil (chain : List MemoryBlock) (i : Nat) (size : Int)
    (h : chain ≠ []) : allocateAt chain i size ≠ [] := by
  cases chain with
  | nil => exact absurd rfl h
  | cons a rest =>
    cases i with
    | zero => unfold allocateAt splitBlock; split <;> simp
    | succ k => simp [allocateAt]

theorem head_allocateAt :
    ∀ (chain : List MemoryBlock) (i : Nat) (size : Int) (h : MemoryBlock),
      (allocateAt chain i size).head? = some h → h.allocated = true ∨ chain.head? = some h := by
  intro chain i size h hh
  cases chain with
  | nil => simp [allocateAt] at hh
  | cons a rest =>
    cases i with
    | zero =>
      left
      unfold allocateAt splitBlock at hh
      split at hh <;> simp at hh <;> rw [← hh]
    | succ k =>
      right
      simpa [allocateAt] using hh

theorem noAdjacentFree_allocateAt (size : Int) :
    ∀ (chain : List MemoryBlock) (i : Nat) (b : MemoryBlock),
      chain[i]? = some b → b.allocated = false → NoAdjacentFree chain →
      NoAdjacentFree (allocateAt chain i size) := by
  intro chain
  induction chain with
  | nil => intro i b h; simp at h
  | cons a rest ih =>
    intro i b h hfree hn
    unfold NoAdjacentFree at hn ⊢
    rw [consecutive_cons] at hn
    cases i with
    | zero =>
      simp only [List.getElem?_cons_zero, Option.some.injEq] at h
      subst h
      unfold allocateAt splitBlock
      split
      · simp only [List.cons_append, List.nil_append]
        rw [consecutive_cons, consecutive_cons]
        refine ⟨?_, ?_, hn.2⟩
        · intro h _; simp
        · intro h hh
          have := hn.1 h hh
          simpa [hfree] using this
      · simp only [List.cons_append, List.nil_append]
        rw [consecutive_cons]
        refine ⟨?_, hn.2⟩
        intro h _; simp
    | succ k =>
      simp only [List.getElem?_cons_succ] at h
      simp only [allocateAt]
      rw [consecutive_cons]
      refine ⟨?_, ih k b h hfree hn.2⟩
      intro x hx
      rcases head_allocateAt rest k size x hx with hx1 | hx2
      · simp [hx1]
      · exact hn.1 x hx2

/-! ## Lemmas on the selection -/

theorem candidate_iff (size : Int) (b : MemoryBlock) :
    (!b.allocated && decide (b.size ≥ size)) = true ↔ Candidate size b := by
  unfold Candidate
  cases h : b.allocated <;> simp

theorem bestFitLoop_eq (size : Int) :
    ∀ (l : List MemoryBlock) (i : Nat) (chosen : Option (Nat × MemoryBlock)),
      bestFitLoop size l i chosen = fitLoop (fun b => b.size) size l i chosen := by
  intro l
  induction l with
  | nil => intro i chosen; rfl
  | cons a rest ih =>
    intro i chosen
    unfold bestFitLoop fitLoop
    split
    · cases chosen with
      | none => exact ih _ _
      | some p =>
        obtain ⟨j, best⟩ := p
        simp only
        split
        · exact ih _ _
        · exact ih _ _
    · exact ih _ _

theorem worstFitLoop_eq (size : Int) :
    ∀ (l : List MemoryBlock) (i : Nat) (chosen : Option (Nat × MemoryBlock)),
      worstFitLoop size l i chosen = fitLoop (fun b => - b.size) size l i chosen := by
  intro l
  induction l with
  | nil => intro i chosen; rfl
  | cons a rest ih =>
    intro i chosen
    unfold worstFitLoop fitLoop
    split
    · cases chosen with
      | none => exact ih _ _
      | some p =>
        obtain ⟨j, worst⟩ := p
        simp only [gt_iff_lt, neg_lt_neg_iff]
        split
        · exact ih _ _
        · exact ih _ _
    · exact ih _ _

theorem fitLoop_none (key : MemoryBlock → Int) (size : Int) :
    ∀ (l : List MemoryBlock) (i : Nat) (chosen : Option (Nat × MemoryBlock)),
      fitLoop key size l i chosen = none ↔ chosen = none ∧ ∀ x ∈ l, ¬ Candidate size x := by
  intro l
  induction l with
  | nil => intro i chosen; simp [fitLoop]
  | cons a rest ih =>
    intro i chosen
    unfold fitLoop
    by_cases hc : (!a.allocated && decide (a.size ≥ size)) = true
    · have hca := (candidate_iff size a).1 hc
      rw [if_pos hc]
      cases chosen with
      | none =>
        simp only [ih, List.mem_cons, forall_eq_or_imp, true_and]
        constructor
        · rintro ⟨h, _⟩; simp at h
        · rintro ⟨h, _⟩; exact absurd hca h
      | some p =>
        obtain ⟨j, best⟩ := p
        simp only
        split <;> simp [ih]
    · have hca : ¬ Candidate size a := fun h => hc ((candidate_iff size a).2 h)
      rw [if_neg hc, ih]
      simp [hca]

theorem fitLoop_some (key : MemoryBlock → Int) (size : Int) :
    ∀ (l : List MemoryBlock) (i : Nat) (chosen : Option (Nat × MemoryBlock))
      (j : Nat) (b : MemoryBlock),
      fitLoop key size l i chosen = some (j, b) →
      (chosen = some (j, b) ∧ ∀ x ∈ l, Candidate size x → key b ≤ key x) ∨
      (∃ k, j = i + k ∧ l[k]? = some b ∧ Candidate size b ∧
        (∀ jb bb, chosen = some (jb, bb) → key b < key bb) ∧
        ∀ m x, l[m]? = some x → Candidate size x → key b ≤ key x ∧ (key x = key b → k ≤ m)) := by
  intro l
  induction l with
  | nil =>
    intro i chosen j b h
    left
    simpa [fitLoop] using h
  | cons a rest ih =>
    intro i chosen j b h
    unfold fitLoop at h
    by_cases hc : (!a.allocated && decide (a.size ≥ size)) = true
    · have hca := (candidate_iff size a).1 hc
      rw [if_pos hc] at h
      -- the state after this iteration is `some (i, a)` or the old `chosen`
      have key_step : ∀ (jn : Nat) (bn : MemoryBlock),
          fitLoop key size rest (i + 1) (some (jn, bn)) = some (j, b) →
          key bn ≤ key a →
          ((jn, bn) = (j, b) → (chosen = some (j, b) ∨ (jn = i ∧ bn = a ∧
            ∀ jb bb, chosen = some (jb, bb) → key a < key bb))) →
          (∀ jb bb, chosen = some (jb, bb) → key bn ≤ key bb) →
          (chosen = some (j, b) ∧ ∀ x ∈ a :: rest, Candidate size x → key b ≤ key x) ∨
          (∃ k, j = i + k ∧ (a :: rest)[k]? = some b ∧ Candidate size b ∧
            (∀ jb bb, chosen = some (jb, bb) → key b < key bb) ∧
            ∀ m x, (a :: rest)[m]? = some x → Candidate size x →
              key b ≤ key x ∧ (key x = key b → k ≤ m)) := by
        intro jn bn hn hle hsame hacc
        rcases ih (i + 1) (some (jn, bn)) j b hn with ⟨he, hall⟩ | ⟨k, hj, hk, hcb, hlt, hmin⟩
        · have he2 : (jn, bn) = (j, b) := by simpa using he
          have hb : bn = b := (Prod.mk.inj he2).2
          rcases hsame he2 with hch | ⟨hji, hba, hltc⟩
          · left
            refine ⟨hch, ?_⟩
            intro x hx hcx
            rcases List.mem_cons.1 hx with rfl | hx
            · rw [← hb]; exact hle
            · exact hall x hx hcx
          · right
            have hj2 : j = i := by rw [← (Prod.mk.inj he2).1]; exact hji
            have hab : a = b := by rw [← hba]; exact hb
            refine ⟨0, by simpa using hj2, by simp [hab], hab ▸ hca, ?_, ?_⟩
            · intro jb bb hjb; rw [← hab]; exact hltc jb bb hjb
            · intro m x hm hcx
              cases m with
              | zero =>
                simp only [List.getElem?_cons_zero, Option.some.injEq] at hm
                subst hm; subst hab
                exact ⟨le_refl _, fun _ => le_refl _⟩
              | succ m2 =>
                simp only [List.getElem?_cons_succ] at hm
                exact ⟨hall x (List.getElem?_mem hm) hcx, fun _ => Nat.zero_le _⟩
        · right
          have hlt2 : key b < key bn := hlt jn bn rfl
          refine ⟨k + 1, by omega, by simpa using hk, hcb, ?_, ?_⟩
          · intro jb bb hjb
            exact lt_of_lt_of_le hlt2 (hacc jb bb hjb)
          · intro m x hm hcx
            cases m with
            | zero =>
              simp only [List.getElem?_cons_zero, Option.some.injEq] at hm
              have : key b < key x := by rw [← hm]; exact lt_of_lt_of_le hlt2 hle
              exact ⟨le_of_lt this, fun e => absurd e (ne_of_gt this)⟩
            | succ m2 =>
              simp only [List.getElem?_cons_succ] at hm
              obtain ⟨h1, h2⟩ := hmin m2 x hm hcx
              exact ⟨h1, fun e => Nat.succ_le_succ (h2 e)⟩
      cases chosen with
      | none =>
        simp only at h
        exact key_step i a h (le_refl _)
          (fun e => Or.inr ⟨rfl, rfl, by intro jb bb hh; simp at hh⟩)
          (by intro jb bb hh; simp at hh)
      | some p =>
        obtain ⟨j0, best⟩ := p
        simp only at h
        by_cases hlt : key a < key best
        · rw [if_pos hlt] at h
          refine key_step i a h (le_refl _)
            (fun e => Or.inr ⟨rfl, rfl, ?_⟩) ?_
          · intro jb bb hh
            simp only [Option.some.injEq, Prod.mk.injEq] at hh
            rw [← hh.2]; exact hlt
          · intro jb bb hh
            simp only [Option.some.injEq, Prod.mk.injEq] at hh
            rw [← hh.2]; exact le_of_lt hlt
        · rw [if_neg hlt] at h
          refine key_step j0 best h (not_lt.mp hlt) (fun e => Or.inl (by rw [e])) ?_
          · intro jb bb hh
            simp only [Option.some.injEq, Prod.mk.injEq] at hh
            rw [← hh.2]
    · have hca : ¬ Candidate size a := fun h => hc ((candidate_iff size a).2 h)
      rw [if_neg hc] at h
      rcases ih (i + 1) chosen j b h with ⟨he, hall⟩ | ⟨k, hj, hk, hcb, hlt, hmin⟩
      · left
        refine ⟨he, ?_⟩
        intro x hx hcx
        rcases List.mem_cons.1 hx with rfl | hx
        · exact absurd hcx hca
        · exact hall x hx hcx
      · right
        refine ⟨k + 1, by omega, by simpa using hk, hcb, hlt, ?_⟩
        intro m x hm hcx
        cases m with
        | zero =>
          simp only [List.getElem?_cons_zero, Option.some.injEq] at hm
          subst hm
          exact absurd hcx hca
        | succ m2 =>
          simp only [List.getElem?_cons_succ] at hm
          obtain ⟨h1, h2⟩ := hmin m2 x hm hcx
          exact ⟨h1, fun e => Nat.succ_le_succ (h2 e)⟩

theorem firstFitLoop_spec (size : Int) :
    ∀ (l : List MemoryBlock) (k : Nat),
      (firstFitLoop size l k = none ∧ (∀ x ∈ l, ¬ Candidate size x) ∧
        allocateFirstFit l size = (NULL, l)) ∨
      (∃ i b, firstFitLoop size l k = some (k + i, b) ∧ l[i]? = some b ∧ Candidate size b ∧
        (∀ j x, l[j]? = some x → Candidate size x → i ≤ j) ∧
        allocateFirstFit l size = (b.start, allocateAt l i size)) := by
  intro l
  induction l with
  | nil => intro k; left; simp [firstFitLoop, allocateFirstFit]
  | cons a rest ih =>
    intro k
    unfold firstFitLoop allocateFirstFit
    by_cases hc : (!a.allocated && decide (a.size ≥ size)) = true
    · right
      rw [if_pos hc, if_pos hc]
      exact ⟨0, a, rfl, by simp, (candidate_iff size a).1 hc, fun j _ _ _ => Nat.zero_le j, rfl⟩
    · have hca : ¬ Candidate size a := fun h => hc ((candidate_iff size a).2 h)
      rw [if_neg hc, if_neg hc]
      rcases ih (k + 1) with ⟨h1, h2, h3⟩ | ⟨i, b, h1, h2, h3, h4, h5⟩
      · left
        refine ⟨h1, ?_, by rw [h3]⟩
        intro x hx
        rcases List.mem_cons.1 hx with rfl | hx
        · exact hca
        · exact h2 x hx
      · right
        refine ⟨i + 1, b, by rw [h1]; congr 2; omega, by simpa using h2, h3, ?_, by rw [h5]; rfl⟩
        intro j x hj hcx
        cases j with
        | zero =>
          simp only [List.getElem?_cons_zero, Option.some.injEq] at hj
          rw [hj] at hca
          exact absurd hcx hca
        | succ j2 =>
          simp only [List.getElem?_cons_succ] at hj
          exact Nat.succ_le_succ (h4 j2 x hj hcx)

theorem fitLoop_start_spec (key : MemoryBlock → Int) (size : Int) (l : List MemoryBlock) :
    (fitLoop key size l 0 none = none ∧ ∀ x ∈ l, ¬ Candidate size x) ∨
    (∃ i b, fitLoop key size l 0 none = some (i, b) ∧ l[i]? = some b ∧ Candidate size b ∧
      ∀ j x, l[j]? = some x → Candidate size x → key b ≤ key x ∧ (key x = key b → i ≤ j)) := by
  cases h : fitLoop key size l 0 none with
  | none =>
    left
    exact ⟨rfl, ((fitLoop_none key size l 0 none).1 h).2⟩
  | some p =>
    obtain ⟨j, b⟩ := p
    right
    rcases fitLoop_some key size l 0 none j b h with ⟨he, _⟩ | ⟨k, hj, hk, hcb, _, hmin⟩
    · simp at he
    · have hjk : j = k := by omega
      subst hjk
      exact ⟨j, b, rfl, hk, hcb, hmin⟩

theorem strategies_distinct :
    FirstFit ≠ BestFit ∧ FirstFit ≠ WorstFit ∧ BestFit ≠ WorstFit := by decide

/-- For each of the three strategies: either no block is a candidate, nothing is selected and
the call returns `NULL` on an unchanged chain, or the selected node is a candidate, the call
returns its start and the chain is split at that node. -/
theorem select_spec (chain : List MemoryBlock) (size : Int) (strategy : String)
    (hs : strategy = FirstFit ∨ strategy = BestFit ∨ strategy = WorstFit) :
    (selectedBlock chain size strategy = none ∧ (∀ x ∈ chain, ¬ Candidate size x) ∧
      allocateMemory chain size strategy = (NULL, chain)) ∨
    (∃ i b, selectedBlock chain size strategy = some (i, b) ∧ chain[i]? = some b ∧
      Candidate size b ∧ allocateMemory chain size strategy = (b.start, allocateAt chain i size)) := by
  obtain ⟨d1, d2, d3⟩ := strategies_distinct
  rcases hs with rfl | rfl | rfl
  · simp only [selectedBlock, allocateMemory, if_true]
    rcases firstFitLoop_spec size chain 0 with ⟨h1, h2, h3⟩ | ⟨i, b, h1, h2, h3, _, h5⟩
    · exact Or.inl ⟨h1, h2, h3⟩
    · exact Or.inr ⟨i, b, by simpa using h1, h2, h3, h5⟩
  · simp only [selectedBlock, allocateMemory, if_neg d1.symm, if_true, allocateBestFit,
      bestFitLoop_eq]
    rcases fitLoop_start_spec (fun b => b.size) size chain with ⟨h1, h2⟩ | ⟨i, b, h1, h2, h3, _⟩
    · exact Or.inl ⟨h1, h2, by rw [h1]⟩
    · exact Or.inr ⟨i, b, h1, h2, h3, by rw [h1]⟩
  · simp only [selectedBlock, allocateMemory, if_neg d2.symm, if_neg d3.symm, if_true,
      allocateWorstFit, worstFitLoop_eq]
    rcases fitLoop_start_spec (fun b => - b.size) size chain with
      ⟨h1, h2⟩ | ⟨i, b, h1, h2, h3, _⟩
    · exact Or.inl ⟨h1, h2, by rw [h1]⟩
    · exact Or.inr ⟨i, b, h1, h2, h3, by rw [h1]⟩

/-! ## Lemmas on deallocation and coalescing -/

theorem coalesceFrom_head :
    ∀ (rest : List MemoryBlock) (current : MemoryBlock),
      ∃ sz tl, coalesceFrom current rest = { current with size := sz } :: tl := by
  intro rest
  induction rest with
  | nil => intro current; exact ⟨current.size, [], rfl⟩
  | cons n rest2 ih =>
    intro current
    unfold coalesceFrom
    split
    · obtain ⟨sz, tl, h⟩ := ih { current with size := current.size + n.size }
      exact ⟨sz, tl, h⟩
    · exact ⟨current.size, _, rfl⟩

theorem covers_coalesceFrom (capacity : Int) :
    ∀ (rest : List MemoryBlock) (current : MemoryBlock) (s : Int),
      Covers capacity s (current :: rest) → Covers capacity s (coalesceFrom current rest) := by
  intro rest
  induction rest with
  | nil => intro current s h; exact h
  | cons n rest2 ih =>
    intro current s h
    obtain ⟨h1, h2, h3, h4, h5⟩ := h
    unfold coalesceFrom
    split
    · apply ih
      have e : s + (current.size + n.size) = s + current.size + n.size := by ring
      exact ⟨h1, by simp only; linarith, by simp only; rw [e]; exact h5⟩
    · exact ⟨h1, h2, ih n (s + current.size) ⟨h3, h4, h5⟩⟩

theorem noAdjacentFree_coalesceFrom :
    ∀ (rest : List MemoryBlock) (current : MemoryBlock),
      NoAdjacentFree (coalesceFrom current rest) := by
  intro rest
  induction rest with
  | nil => intro current; simp [coalesceFrom, NoAdjacentFree, Consecutive]
  | cons n rest2 ih =>
    intro current
    unfold coalesceFrom
    split
    · exact ih _
    · rename_i hc
      unfold NoAdjacentFree
      rw [consecutive_cons]
      refine ⟨?_, ih n⟩
      intro h hh
      obtain ⟨sz, tl, e⟩ := coalesceFrom_head rest2 n
      rw [e] at hh
      simp only [List.head?_cons, Option.some.injEq] at hh
      rw [← hh]
      intro hboth
      apply hc
      simp only at hboth
      simp [hboth.1, hboth.2]

theorem noAdjacentFree_coalesceMemory (chain : List MemoryBlock) :
    NoAdjacentFree (coalesceMemory chain) := by
  cases chain with
  | nil => simp [coalesceMemory, NoAdjacentFree, Consecutive]
  | cons a rest => exact noAdjacentFree_coalesceFrom rest a

theorem covers_coalesceMemory (capacity s : Int) (chain : List MemoryBlock)
    (h : Covers capacity s chain) : Covers capacity s (coalesceMemory chain) := by
  cases chain with
  | nil => exact h
  | cons a rest => exact covers_coalesceFrom capacity rest a s h

theorem coalesceMemory_ne_nil (chain : List MemoryBlock) (h : chain ≠ []) :
    coalesceMemory chain ≠ [] := by
  cases chain with
  | nil => exact absurd rfl h
  | cons a rest =>
    obtain ⟨sz, tl, e⟩ := coalesceFrom_head rest a
    simp [coalesceMemory, e]

theorem covers_markFree (capacity : Int) (start : Int) :
    ∀ (chain freed : List MemoryBlock) (s : Int),
      markFree start chain = some freed → Covers capacity s chain → Covers capacity s freed := by
  intro chain
  induction chain with
  | nil => intro freed s h; simp [markFree] at h
  | cons a rest ih =>
    intro freed s h hc
    unfold markFree at h
    split at h
    · simp only [Option.some.injEq] at h
      rw [← h]
      exact hc
    · simp only [Option.map_eq_some'] at h
      obtain ⟨tl, h1, h2⟩ := h
      rw [← h2]
      exact ⟨hc.1, hc.2.1, ih tl (s + a.size) h1 hc.2.2⟩

theorem markFree_ne_nil (start : Int) (chain freed : List MemoryBlock)
    (h : markFree start chain = some freed) : freed ≠ [] := by
  cases chain with
  | nil => simp [markFree] at h
  | cons a rest =>
    unfold markFree at h
    split at h
    · simp only [Option.some.injEq] at h
      rw [← h]; simp
    · simp only [Option.map_eq_some'] at h
      obtain ⟨tl, _, h2⟩ := h
      rw [← h2]; simp

theorem markFree_none (start : Int) :
    ∀ (chain : List MemoryBlock),
      (∀ b ∈ chain, ¬ (b.start = start ∧ b.allocated = true)) → markFree start chain = none := by
  intro chain
  induction chain with
  | nil => intro _; rfl
  | cons a rest ih =>
    intro h
    unfold markFree
    have ha := h a (List.mem_cons_self a rest)
    have hr := ih (fun b hb => h b (List.mem_cons_of_mem a hb))
    rw [if_neg (by simpa using ha), hr]
    rfl

/-! ## Lemmas on single calls -/

theorem covers_step (capacity : Int) (chain : List MemoryBlock) (op : Op) (hop : op.valid)
    (h : chain ≠ [] ∧ Covers capacity 0 chain) :
    step chain op ≠ [] ∧ Covers capacity 0 (step chain op) := by
  cases op with
  | alloc size strategy =>
    obtain ⟨hsize, hs⟩ := hop
    simp only [step]
    rcases select_spec chain size strategy hs with ⟨_, _, h3⟩ | ⟨i, b, _, h2, h3, h4⟩
    · rw [h3]; exact h
    · rw [h4]
      exact ⟨allocateAt_ne_nil chain i size h.1,
        covers_allocateAt capacity size hsize chain i b 0 h2 h3.2 h.2⟩
  | dealloc ptr =>
    simp only [step, deallocateMemory]
    cases hm : markFree (ptrToInt ptr) chain with
    | none => exact h
    | some freed =>
      exact ⟨coalesceMemory_ne_nil freed (markFree_ne_nil _ chain freed hm),
        covers_coalesceMemory capacity 0 freed (covers_markFree capacity _ chain freed 0 hm h.2)⟩

theorem noAdjacentFree_step (chain : List MemoryBlock) (op : Op) (hop : op.valid)
    (h : NoAdjacentFree chain) : NoAdjacentFree (step chain op) := by
  cases op with
  | alloc size strategy =>
    obtain ⟨_, hs⟩ := hop
    simp only [step]
    rcases select_spec chain size strategy hs with ⟨_, _, h3⟩ | ⟨i, b, _, h2, h3, h4⟩
    · rw [h3]; exact h
    · rw [h4]
      exact noAdjacentFree_allocateAt size chain i b h2 h3.1 h
  | dealloc ptr =>
    simp only [step, deallocateMemory]
    cases hm : markFree (ptrToInt ptr) chain with
    | none => exact h
    | some freed => exact noAdjacentFree_coalesceMemory freed

theorem foldl_step_invariant (P : List MemoryBlock → Prop)
    (hstep : ∀ chain op, op.valid → P chain → P (step chain op)) :
    ∀ (ops : List Op) (chain : List MemoryBlock),
      (∀ op ∈ ops, op.valid) → P chain → P (ops.foldl step chain) := by
  intro ops
  induction ops with
  | nil => intro chain _ h; exact h
  | cons op rest ih =>
    intro chain hv h
    simp only [List.foldl_cons]
    exact ih (step chain op) (fun o ho => hv o (List.mem_cons_of_mem op ho))
      (hstep chain op (hv op (List.mem_cons_self op rest)) h)

/-! ## Lemmas on the order of starts -/

theorem covers_start_ge (capacity : Int) :
    ∀ (chain : List MemoryBlock) (s : Int) (j : Nat) (y : MemoryBlock),
      Covers capacity s chain → chain[j]? = some y → s ≤ y.start := by
  intro chain
  induction chain with
  | nil => intro s j y _ h; simp at h
  | cons a rest ih =>
    intro s j y hc h
    obtain ⟨h1, h2, h3⟩ := hc
    cases j with
    | zero =>
      simp only [List.getElem?_cons_zero, Option.some.injEq] at h
      rw [← h, h1]
    | succ j2 =>
      simp only [List.getElem?_cons_succ] at h
      have := ih (s + a.size) j2 y h3 h
      linarith

theorem covers_start_lt (capacity : Int) :
    ∀ (chain : List MemoryBlock) (s : Int) (i j : Nat) (x y : MemoryBlock),
      Covers capacity s chain → chain[i]? = some x → chain[j]? = some y → i < j →
      x.start < y.start := by
  intro chain
  induction chain with
  | nil => intro s i j x y _ h; simp at h
  | cons a rest ih =>
    intro s i j x y hc hi hj hij
    obtain ⟨h1, h2, h3⟩ := hc
    cases j with
    | zero => exact absurd hij (Nat.not_lt_zero i)
    | succ j2 =>
      simp only [List.getElem?_cons_succ] at hj
      cases i with
      | zero =>
        simp only [List.getElem?_cons_zero, Option.some.injEq] at hi
        have := covers_start_ge capacity rest (s + a.size) j2 y h3 hj
        rw [← hi, h1]
        linarith
      | succ i2 =>
        simp only [List.getElem?_cons_succ] at hi
        exact ih (s + a.size) i2 j2 x y h3 hi hj (Nat.lt_of_succ_lt_succ hij)

theorem covers_end_le (capacity : Int) :
    ∀ (chain : List MemoryBlock) (s : Int) (j : Nat) (y : MemoryBlock),
      Covers capacity s chain → chain[j]? = some y → y.start + y.size ≤ capacity := by
  intro chain
  induction chain with
  | nil => intro s j y _ h; simp at h
  | cons a rest ih =>
    intro s j y hc h
    obtain ⟨h1, h2, h3⟩ := hc
    cases j with
    | zero =>
      simp only [List.getElem?_cons_zero, Option.some.injEq] at h
      rw [← h, h1]
      cases rest with
      | nil => exact le_of_eq h3
      | cons r rest2 =>
        have h4 := covers_start_ge capacity (r :: rest2) (s + a.size) 0 r h3 (by simp)
        have h5 := ih (s + a.size) 0 r h3 (by simp)
        have h6 := h3.2.1
        linarith
    | succ j2 =>
      simp only [List.getElem?_cons_succ] at h
      exact ih (s + a.size) j2 y h3 h

theorem ptrToInt_of_int (x : Int) (h0 : -2147483648 ≤ x) (h1 : x ≤ INT_MAX) :
    ptrToInt x = x := by
  unfold ptrToInt
  unfold INT_MAX at h1
  omega

/-! ## Lemmas on allocate followed by deallocate -/

theorem coalesceFrom_id :
    ∀ (l : List MemoryBlock) (x : MemoryBlock),
      NoAdjacentFree (x :: l) → coalesceFrom x l = x :: l := by
  intro l
  induction l with
  | nil => intro x _; rfl
  | cons n rest ih =>
    intro x h
    unfold NoAdjacentFree at h
    obtain ⟨h1, h2⟩ := h
    unfold coalesceFrom
    rw [if_neg (by
      intro hc
      apply h1
      simpa using hc)]
    rw [ih n h2]

theorem roundtrip_at (capacity : Int) (size : Int) :
    ∀ (chain : List MemoryBlock) (s : Int) (i : Nat) (b : MemoryBlock),
      Covers capacity s chain → NoAdjacentFree chain → chain[i]? = some b →
      Candidate size b →
      ∃ freed, markFree b.start (allocateAt chain i size) = some freed ∧
        coalesceMemory freed = chain ∧
        ∀ f, freed.head? = some f →
          ∃ h, chain.head? = some h ∧ (f.allocated = false → h.allocated = false) := by
  intro chain
  induction chain with
  | nil => intro s i b _ _ h; simp at h
  | cons a rest ih =>
    intro s i b hcov hnaf hi hcand
    cases i with
    | zero =>
      simp only [List.getElem?_cons_zero, Option.some.injEq] at hi
      subst hi
      obtain ⟨as, az, aa⟩ := a
      obtain ⟨hfree, hle⟩ := hcand
      simp only at hfree hle
      subst hfree
      have hid := coalesceFrom_id rest ⟨as, az, false⟩ hnaf
      unfold allocateAt splitBlock
      by_cases hgt : az > size
      · simp only [hgt, if_true, List.cons_append, List.nil_append]
        refine ⟨⟨as, size, false⟩ :: ⟨as + size, az - size, false⟩ :: rest, ?_, ?_, ?_⟩
        · simp [markFree]
        · have e : size + (az - size) = az := by ring
          simp only [coalesceMemory, coalesceFrom, Bool.not_false, Bool.and_self, if_true, e]
          exact hid
        · intro f hf
          exact ⟨_, rfl, fun _ => rfl⟩
      · have e : size = az := le_antisymm hle (not_lt.mp hgt)
        subst e
        simp only [hgt, if_false, List.cons_append, List.nil_append]
        refine ⟨⟨as, size, false⟩ :: rest, ?_, ?_, ?_⟩
        · simp [markFree]
        · simp only [coalesceMemory]
          exact hid
        · intro f hf
          exact ⟨_, rfl, fun _ => rfl⟩
    | succ k =>
      simp only [List.getElem?_cons_succ] at hi
      have hlt : a.start < b.start :=
        covers_start_lt capacity (a :: rest) s 0 (k + 1) a b hcov (by simp) (by simpa using hi)
          (Nat.succ_pos k)
      obtain ⟨h1, h2, h3⟩ := hcov
      unfold NoAdjacentFree at hnaf
      rw [consecutive_cons] at hnaf
      obtain ⟨freed, hm, hco, hhead⟩ := ih (s + a.size) k b h3 hnaf.2 hi hcand
      refine ⟨a :: freed, ?_, ?_, ?_⟩
      · simp only [allocateAt, markFree]
        rw [if_neg (by
          intro hc
          simp only [Bool.and_eq_true, decide_eq_true_eq] at hc
          exact absurd hc.1 (ne_of_lt hlt)), hm]
        rfl
      · cases freed with
        | nil => exact absurd rfl (markFree_ne_nil _ _ _ hm)
        | cons f ft =>
          obtain ⟨h, hh, hfh⟩ := hhead f rfl
          have hrel := hnaf.1 h hh
          simp only [coalesceMemory, coalesceFrom]
          rw [if_neg (by
            intro hc
            simp only [Bool.and_eq_true, Bool.not_eq_true'] at hc
            exact hrel ⟨hc.1, hfh hc.2⟩)]
          simp only [coalesceMemory] at hco
          rw [hco]
      · intro f hf
        simp only [List.head?_cons, Option.some.injEq] at hf
        exact ⟨a, rfl, fun e => by rw [hf]; exact e⟩

/-! ## Lemmas on a repeated deallocation -/

theorem allocated_coalesceFrom :
    ∀ (rest : List MemoryBlock) (current : MemoryBlock),
      (coalesceFrom current rest).filter (fun b => b.allocated) =
        (current :: rest).filter (fun b => b.allocated) := by
  intro rest
  induction rest with
  | nil => intro current; rfl
  | cons n rest2 ih =>
    intro current
    unfold coalesceFrom
    split
    · rename_i hc
      simp only [Bool.and_eq_true, Bool.not_eq_true'] at hc
      rw [ih]
      simp [List.filter_cons, hc.1, hc.2]
    · rw [List.filter_cons, ih n, ← List.filter_cons]

theorem allocated_coalesceMemory (chain : List MemoryBlock) :
    (coalesceMemory chain).filter (fun b => b.allocated) =
      chain.filter (fun b => b.allocated) := by
  cases chain with
  | nil => rfl
  | cons a rest => exact allocated_coalesceFrom rest a

theorem markFree_no_allocated (capacity : Int) (start : Int) :
    ∀ (chain freed : List MemoryBlock) (s : Int),
      Covers capacity s chain → markFree start chain = some freed →
      ∀ b ∈ freed, ¬ (b.start = start ∧ b.allocated = true) := by
  intro chain
  induction chain with
  | nil => intro freed s _ h; simp [markFree] at h
  | cons a rest ih =>
    intro freed s hcov h
    obtain ⟨h1, h2, h3⟩ := hcov
    unfold markFree at h
    split at h
    · rename_i hc
      simp only [Bool.and_eq_true, decide_eq_true_eq] at hc
      simp only [Option.some.injEq] at h
      rw [← h]
      intro b hb
      rcases List.mem_cons.1 hb with rfl | hb
      · simp
      · obtain ⟨j, hj⟩ := List.getElem?_of_mem hb
        have := covers_start_ge capacity rest (s + a.size) j b h3 hj
        intro hbs
        rw [← hc.1, h1] at hbs
        linarith [hbs.1]
    · rename_i hc
      simp only [Bool.and_eq_true, decide_eq_true_eq] at hc
      simp only [Option.map_eq_some'] at h
      obtain ⟨tl, h4, h5⟩ := h
      rw [← h5]
      intro b hb
      rcases List.mem_cons.1 hb with rfl | hb
      · exact hc
      · exact ih tl (s + a.size) h3 h4 b hb

theorem markFree_isSome (start : Int) :
    ∀ (chain : List MemoryBlock) (b : MemoryBlock),
      b ∈ chain → b.start = start → b.allocated = true →
      ∃ freed, markFree start chain = some freed := by
  intro chain
  induction chain with
  | nil => intro b hb; simp at hb
  | cons a rest ih =>
    intro b hb hs ha
    unfold markFree
    split
    · exact ⟨_, rfl⟩
    · rename_i hc
      rcases List.mem_cons.1 hb with rfl | hb2
      · exact absurd (by simp [hs, ha]) hc
      · obtain ⟨freed, hf⟩ := ih b hb2 hs ha
        exact ⟨_, by rw [hf]; rfl⟩

/-! ## Lemmas on the allocated blocks -/

theorem markFree_filter (capacity : Int) (start : Int) :
    ∀ (chain freed : List MemoryBlock) (s : Int) (b : MemoryBlock),
      Covers capacity s chain → b ∈ chain → b.start = start → b.allocated = true →
      markFree start chain = some freed →
      freed.filter (fun x => x.allocated) = (chain.filter (fun x => x.allocated)).erase b := by
  intro chain
  induction chain with
  | nil => intro freed s b _ hb; simp at hb
  | cons a rest ih =>
    intro freed s b hcov hb hs ha hm
    obtain ⟨h1, h2, h3⟩ := hcov
    unfold markFree at hm
    split at hm
    · rename_i hc
      simp only [Bool.and_eq_true, decide_eq_true_eq] at hc
      simp only [Option.some.injEq] at hm
      have hba : b = a := by
        rcases List.mem_cons.1 hb with e | hb2
        · exact e
        · obtain ⟨j, hj⟩ := List.getElem?_of_mem hb2
          have := covers_start_ge capacity rest (s + a.size) j b h3 hj
          rw [hs, ← hc.1, h1] at this
          linarith
      subst hba
      rw [← hm]
      simp [List.filter_cons, ha]
    · rename_i hc
      simp only [Option.map_eq_some'] at hm
      obtain ⟨tl, h4, h5⟩ := hm
      have hne : a ≠ b := by
        intro e
        apply hc
        rw [e]
        simp [hs, ha]
      have hb2 : b ∈ rest := by
        rcases List.mem_cons.1 hb with e | hb2
        · exact absurd e.symm hne
        · exact hb2
      have hrec := ih tl (s + a.size) b h3 hb2 hs ha h4
      rw [← h5]
      cases haa : a.allocated with
      | false => simp [List.filter_cons, haa, hrec]
      | true =>
        simp only [List.filter_cons, haa, if_true, hrec]
        rw [List.erase_cons_tail]
        simpa using hne

/-! ## Lemmas on the result of coalescing -/

theorem coalesceFrom_eq :
    ∀ (rest : List MemoryBlock) (current : MemoryBlock),
      coalesceFrom current rest =
        if current.allocated then current :: coalesceMemory rest
        else
          { current with size := current.size +
              ((rest.takeWhile (fun x => !x.allocated)).map (fun x => x.size)).sum } ::
            coalesceMemory (rest.dropWhile (fun x => !x.allocated)) := by
  intro rest
  induction rest with
  | nil =>
    intro current
    obtain ⟨cs, cz, ca⟩ := current
    cases ca <;> simp [coalesceFrom, coalesceMemory]
  | cons n rest2 ih =>
    intro current
    obtain ⟨cs, cz, ca⟩ := current
    unfold coalesceFrom
    cases ca with
    | true => simp [coalesceMemory]
    | false =>
      cases hn : n.allocated with
      | true => simp [coalesceMemory, List.takeWhile_cons, List.dropWhile_cons, hn]
      | false =>
        simp only [Bool.not_false, Bool.and_self, if_true, Bool.false_eq_true, if_false]
        rw [ih]
        simp [List.takeWhile_cons, List.dropWhile_cons, hn, add_assoc]

theorem coalesceMemory_eq_specCoalesce :
    ∀ (n : Nat) (chain : List MemoryBlock), chain.length ≤ n →
      coalesceMemory chain = specCoalesce chain := by
  intro n
  induction n with
  | zero =>
    intro chain h
    have : chain = [] := List.length_eq_zero.1 (Nat.le_zero.1 h)
    subst this
    simp [coalesceMemory, specCoalesce]
  | succ k ih =>
    intro chain h
    cases chain with
    | nil => simp [coalesceMemory, specCoalesce]
    | cons b rest =>
      have hrest : rest.length ≤ k := Nat.le_of_succ_le_succ h
      have hdrop : (rest.dropWhile (fun x => !x.allocated)).length ≤ k :=
        le_trans (List.dropWhile_sublist _).length_le hrest
      rw [specCoalesce]
      simp only [coalesceMemory]
      rw [coalesceFrom_eq, ih rest hrest, ih _ hdrop]

theorem totalSize_coalesceFrom :
    ∀ (rest : List MemoryBlock) (current : MemoryBlock),
      totalSize (coalesceFrom current rest) = current.size + totalSize rest := by
  intro rest
  induction rest with
  | nil => intro current; simp [coalesceFrom, totalSize]
  | cons n rest2 ih =>
    intro current
    unfold coalesceFrom
    split
    · rw [ih]
      simp [totalSize, add_assoc]
    · have := ih n
      simp only [totalSize, List.map_cons, List.sum_cons] at this ⊢
      rw [this]

theorem countFree_coalesceFrom :
    ∀ (rest : List MemoryBlock) (current : MemoryBlock),
      countFree (coalesceFrom current rest) ≤ countFree (current :: rest) := by
  intro rest
  induction rest with
  | nil => intro current; exact le_refl _
  | cons n rest2 ih =>
    intro current
    unfold coalesceFrom
    split
    · rename_i hc
      simp only [Bool.and_eq_true, Bool.not_eq_true'] at hc
      have := ih { current with size := current.size + n.size }
      simp only [countFree, List.filter_cons, hc.1, hc.2, Bool.not_false, if_true,
        List.length_cons] at this ⊢
      omega
    · have := ih n
      simp only [countFree, List.filter_cons] at this ⊢
      split_ifs at this ⊢ <;> (try simp only [List.length_cons] at this) <;>
        (try simp only [List.length_cons]) <;> omega

theorem countFree_coalesceMemory (chain : List MemoryBlock) :
    countFree (coalesceMemory chain) ≤ countFree chain := by
  cases chain with
  | nil => simp [coalesceMemory]
  | cons a rest => exact countFree_coalesceFrom rest a

theorem covers_le (capacity : Int) :
    ∀ (chain : List MemoryBlock) (s : Int), Covers capacity s chain → s ≤ capacity := by
  intro chain
  induction chain with
  | nil => intro s h; exact le_of_eq h
  | cons a rest ih =>
    intro s h
    have := ih (s + a.size) h.2.2
    linarith [h.2.1]

theorem covers_cons_lt (capacity s : Int) (a : MemoryBlock) (rest : List MemoryBlock)
    (h : Covers capacity s (a :: rest)) : s < capacity := by
  have := covers_le capacity rest (s + a.size) h.2.2
  linarith [h.2.1]

theorem covers_mem_start_gt (capacity s : Int) (a x : MemoryBlock) (rest : List MemoryBlock)
    (h : Covers capacity s (a :: rest)) (hx : x ∈ rest) : s < x.start := by
  obtain ⟨j, hj⟩ := List.getElem?_of_mem hx
  have := covers_start_ge capacity rest (s + a.size) j x h.2.2 hj
  linarith [h.2.1]

/-- Two chains that cover the same range, have no adjacent free blocks and have the same
allocated blocks are the same chain. -/
theorem covers_noAdjacentFree_unique (capacity : Int) :
    ∀ (c1 c2 : List MemoryBlock) (s : Int),
      Covers capacity s c1 → Covers capacity s c2 → NoAdjacentFree c1 → NoAdjacentFree c2 →
      c1.filter (fun x => x.allocated) = c2.filter (fun x => x.allocated) → c1 = c2 := by
  intro c1
  induction c1 with
  | nil =>
    intro c2 s h1 h2 _ _ _
    cases c2 with
    | nil => rfl
    | cons a2 r2 =>
      have := covers_cons_lt capacity s a2 r2 h2
      have e : s = capacity := h1
      linarith
  | cons a1 r1 ih =>
    intro c2 s h1 h2 n1 n2 hf
    cases c2 with
    | nil =>
      have := covers_cons_lt capacity s a1 r1 h1
      have e : s = capacity := h2
      linarith
    | cons a2 r2 =>
      unfold NoAdjacentFree at n1 n2
      rw [consecutive_cons] at n1 n2
      -- both heads are allocated, or both are free
      have hflag : a1.allocated = a2.allocated := by
        cases e1 : a1.allocated <;> cases e2 : a2.allocated
        · rfl
        · exfalso
          have hmem : a2 ∈ r1.filter (fun x => x.allocated) := by
            have : a2 ∈ (a2 :: r2).filter (fun x => x.allocated) :=
              List.mem_filter.2 ⟨List.mem_cons_self _ _, e2⟩
            rw [← hf] at this
            simpa [List.filter_cons, e1] using this
          have := covers_mem_start_gt capacity s a1 a2 r1 h1 (List.mem_filter.1 hmem).1
          linarith [h2.1]
        · exfalso
          have hmem : a1 ∈ r2.filter (fun x => x.allocated) := by
            have : a1 ∈ (a1 :: r1).filter (fun x => x.allocated) :=
              List.mem_filter.2 ⟨List.mem_cons_self _ _, e1⟩
            rw [hf] at this
            simpa [List.filter_cons, e2] using this
          have := covers_mem_start_gt capacity s a2 a1 r2 h2 (List.mem_filter.1 hmem).1
          linarith [h1.1]
        · rfl
      have hstart : a1.start = a2.start := by rw [h1.1, h2.1]
      have hsize : a1.size = a2.size := by
        cases e1 : a1.allocated with
        | true =>
          have e2 : a2.allocated = true := by rw [← hflag]; exact e1
          simp only [List.filter_cons, e1, e2, if_true, List.cons.injEq] at hf
          rw [hf.1]
        | false =>
          have e2 : a2.allocated = false := by rw [← hflag]; exact e1
          simp only [List.filter_cons, e1, e2, Bool.false_eq_true, if_false] at hf
          cases r1 with
          | nil =>
            cases r2 with
            | nil =>
              have k1 : s + a1.size = capacity := h1.2.2
              have k2 : s + a2.size = capacity := h2.2.2
              linarith
            | cons m2 t2 =>
              have hm2 : m2.allocated = true := by
                have := n2.1 m2 rfl
                simpa [e2] using this
              simp [List.filter_cons, hm2] at hf
          | cons m1 t1 =>
            have hm1 : m1.allocated = true := by
              have := n1.1 m1 rfl
              simpa [e1] using this
            cases r2 with
            | nil => simp [List.filter_cons, hm1] at hf
            | cons m2 t2 =>
              have hm2 : m2.allocated = true := by
                have := n2.1 m2 rfl
                simpa [e2] using this
              simp only [List.filter_cons, hm1, hm2, if_true, List.cons.injEq] at hf
              have k1 : m1.start = s + a1.size := h1.2.2.1
              have k2 : m2.start = s + a2.size := h2.2.2.1
              rw [hf.1] at k1
              linarith
      have hhead : a1 = a2 := by
        obtain ⟨x1, y1, z1⟩ := a1
        obtain ⟨x2, y2, z2⟩ := a2
        simp only at hflag hstart hsize
        rw [hflag, hstart, hsize]
      subst hhead
      have htail : r1.filter (fun x => x.allocated) = r2.filter (fun x => x.allocated) := by
        cases e1 : a1.allocated with
        | true => simpa [List.filter_cons, e1] using hf
        | false => simpa [List.filter_cons, e1] using hf
      rw [ih r2 (s + a1.size) h1.2.2 h2.2.2 n1.2 n2.2 htail]

/-! ## Lemmas on the iterations of the coalescing loop -/

theorem coalesceLoop_from :
    ∀ (rest : List MemoryBlock) (current : MemoryBlock) (passed : List MemoryBlock)
      (fuel : Nat), rest.length ≤ fuel →
      coalesceLoop fuel { passed := passed, remaining := current :: rest } =
        some (rest.length, passed ++ coalesceFrom current rest) := by
  intro rest
  induction rest with
  | nil =>
    intro current passed fuel _
    cases fuel <;> simp [coalesceLoop, coalesceIteration, coalesceFrom]
  | cons n rest2 ih =>
    intro current passed fuel hfuel
    cases fuel with
    | zero => simp at hfuel
    | succ f =>
      have hf : rest2.length ≤ f := Nat.le_of_succ_le_succ hfuel
      by_cases hc : (!current.allocated && !n.allocated) = true
      · have hstep : coalesceIteration { passed := passed, remaining := current :: n :: rest2 } =
            some { passed := passed,
                   remaining := { current with size := current.size + n.size } :: rest2 } := by
          simp [coalesceIteration, hc]
        rw [coalesceLoop, hstep]
        simp only
        rw [ih _ passed f hf, coalesceFrom, if_pos hc]
        rfl
      · have hstep : coalesceIteration { passed := passed, remaining := current :: n :: rest2 } =
            some { passed := passed ++ [current], remaining := n :: rest2 } := by
          simp [coalesceIteration, hc]
        rw [coalesceLoop, hstep]
        simp only
        rw [ih n (passed ++ [current]) f hf, coalesceFrom, if_neg hc]
        simp

theorem coalesceFromInRange_of_covers (capacity : Int) (hcap : capacity ≤ INT_MAX) :
    ∀ (rest : List MemoryBlock) (current : MemoryBlock) (s : Int), 0 ≤ s →
      Covers capacity s (current :: rest) → coalesceFromInRange current rest = true := by
  intro rest
  induction rest with
  | nil => intro current s _ _; rfl
  | cons n rest2 ih =>
    intro current s hs h
    obtain ⟨h1, h2, h3, h4, h5⟩ := h
    unfold coalesceFromInRange
    split
    · have hle := covers_le capacity rest2 (s + current.size + n.size) h5
      have e : s + (current.size + n.size) = s + current.size + n.size := by ring
      have hrec := ih { current with size := current.size + n.size } s hs
        ⟨h1, by simp only; linarith, by simp only; rw [e]; exact h5⟩
      unfold INT_MAX at hcap
      simp only [Bool.and_eq_true, decide_eq_true_eq, INT_MIN, INT_MAX]
      exact ⟨⟨by linarith, by linarith⟩, hrec⟩
    · exact ih n (s + current.size) (by linarith) ⟨h3, h4, h5⟩

theorem coalesceInRange_of_wellFormed (capacity : Int) (chain : List MemoryBlock)
    (hcap : capacity ≤ INT_MAX) (hwf : WellFormed capacity chain) :
    coalesceInRange chain = true := by
  obtain ⟨_, hcov⟩ := (wellFormed_iff capacity chain).1 hwf
  cases chain with
  | nil => rfl
  | cons a rest => exact coalesceFromInRange_of_covers capacity hcap rest a 0 (le_refl _) hcov

/-! ## Lemmas on the timing harness -/

theorem measureLoop_requests (strategy : String) (blockSizes : List Int) (numSizes : Int) :
    ∀ (n i : Nat) (chain : List MemoryBlock),
      ∃ requests : List (Int × Int), requests.length = n ∧
        (measureLoop strategy blockSizes numSizes n i chain).1 =
          requests.flatMap iterationCalls ∧
        ∀ k, k < n → requests[k]?.map Prod.fst =
          some (blockSizes.getD (Int.tmod ((i + k : Nat) : Int) numSizes).toNat 0) := by
  intro n
  induction n with
  | zero => intro i chain; exact ⟨[], rfl, rfl, fun k hk => absurd hk (Nat.not_lt_zero k)⟩
  | succ m ih =>
    intro i chain
    unfold measureLoop
    simp only
    have hsizes : ∀ (block : Int) (rs : List (Int × Int)),
        (∀ k, k < m → rs[k]?.map Prod.fst =
          some (blockSizes.getD (Int.tmod ((i + 1 + k : Nat) : Int) numSizes).toNat 0)) →
        ∀ k, k < m + 1 →
          ((blockSizes.getD (Int.tmod (i : Int) numSizes).toNat 0, block) :: rs)[k]?.map
              Prod.fst =
            some (blockSizes.getD (Int.tmod ((i + k : Nat) : Int) numSizes).toNat 0) := by
      intro block rs hrs k hk
      cases k with
      | zero => simp
      | succ j =>
        have e : i + (j + 1) = i + 1 + j := by omega
        rw [e]
        simpa using hrs j (Nat.lt_of_succ_lt_succ hk)
    split
    · rename_i hne
      obtain ⟨rs, hlen, hrs, hsz⟩ := ih (i + 1)
        (deallocateMemory
          (allocateMemory chain (blockSizes.getD (Int.tmod (i : Int) numSizes).toNat 0)
            strategy).2
          (allocateMemory chain (blockSizes.getD (Int.tmod (i : Int) numSizes).toNat 0)
            strategy).1).chain
      refine ⟨(blockSizes.getD (Int.tmod (i : Int) numSizes).toNat 0,
        (allocateMemory chain (blockSizes.getD (Int.tmod (i : Int) numSizes).toNat 0)
          strategy).1) :: rs, by simp [hlen], ?_, hsizes _ rs hsz⟩
      rw [hrs, List.flatMap_cons, iterationCalls, if_pos hne]
      rfl
    · rename_i hne
      obtain ⟨rs, hlen, hrs, hsz⟩ := ih (i + 1)
        (allocateMemory chain (blockSizes.getD (Int.tmod (i : Int) numSizes).toNat 0)
          strategy).2
      refine ⟨(blockSizes.getD (Int.tmod (i : Int) numSizes).toNat 0,
        (allocateMemory chain (blockSizes.getD (Int.tmod (i : Int) numSizes).toNat 0)
          strategy).1) :: rs, by simp [hlen], ?_, hsizes _ rs hsz⟩
      rw [hrs, List.flatMap_cons, iterationCalls, if_neg hne]
      rfl

theorem blockSizes_read_in_range (blockSizes : List Int) (numSizes : Int) (k : Nat)
    (hpos : 0 < numSizes) (hlen : numSizes ≤ blockSizes.length) :
    ∃ size, blockSizes[(Int.tmod (k : Int) numSizes).toNat]? = some size ∧
      blockSizes.getD (Int.tmod (k : Int) numSizes).toNat 0 = size := by
  have h0 : 0 ≤ Int.tmod (k : Int) numSizes := Int.tmod_nonneg numSizes (Int.ofNat_nonneg k)
  have h1 : Int.tmod (k : Int) numSizes < numSizes := Int.tmod_lt_of_pos (k : Int) hpos
  have hidx : (Int.tmod (k : Int) numSizes).toNat < blockSizes.length := by
    have : ((Int.tmod (k : Int) numSizes).toNat : Int) = Int.tmod (k : Int) numSizes :=
      Int.toNat_of_nonneg h0
    omega
  refine ⟨blockSizes[(Int.tmod (k : Int) numSizes).toNat], ?_, ?_⟩
  · exact List.getElem?_eq_getElem hidx
  · simp [List.getD_eq_getElem?_getD, List.getElem?_eq_getElem hidx]

/-! ## The claims -/

/-- C1 (coverage invariant). For every capacity > 0 and every finite sequence of
`allocateMemory` calls with size > 0 and one of the three strategy names and of
`deallocateMemory` calls with arbitrary pointers, run on the allocator made by
`initializeMemoryAllocator(capacity)`, the resulting chain is well formed: its first block
starts at 0, every block has a positive size, each block ends where the next one starts, and
the last block ends at `capacity`. -/
theorem coverage_invariant (capacity : Int) (ops : List Op) (hcap : 0 < capacity)
    (hops : ∀ op ∈ ops, op.valid) : WellFormed capacity (run capacity ops) := by
  rw [wellFormed_iff]
  refine foldl_step_invariant (fun c => c ≠ [] ∧ Covers capacity 0 c)
    (fun chain op hop h => covers_step capacity chain op hop h) ops _ hops ?_
  refine ⟨by simp [initializeMemoryAllocator], ?_⟩
  simp only [initializeMemoryAllocator, Covers]
  exact ⟨trivial, hcap, by ring⟩

/-- Witness for C1: the First Fit script of `main` followed by a deallocation of a pointer
that matches no block. -/
theorem coverage_invariant_witness :
    (0 < (1024 : Int) ∧
      ∀ op ∈ [Op.alloc 100 FirstFit, Op.alloc 200 BestFit, Op.alloc 50 WorstFit,
        Op.dealloc 100, Op.alloc 75 FirstFit, Op.dealloc 0, Op.dealloc (-1)], op.valid) ∧
    WellFormed 1024 (run 1024 [Op.alloc 100 FirstFit, Op.alloc 200 BestFit,
      Op.alloc 50 WorstFit, Op.dealloc 100, Op.alloc 75 FirstFit, Op.dealloc 0,
      Op.dealloc (-1)]) :=
  ⟨by decide, coverage_invariant 1024 _ (by decide) (by decide)⟩

/-- C2 (no adjacent free blocks). For every capacity > 0 and every finite sequence of
`allocateMemory` calls with size > 0 and one of the three strategy names and of
`deallocateMemory` calls with arbitrary pointers, run on the allocator made by
`initializeMemoryAllocator(capacity)`, no two consecutive blocks of the resulting chain are
both free. -/
theorem no_adjacent_free_invariant (capacity : Int) (ops : List Op) (hcap : 0 < capacity)
    (hops : ∀ op ∈ ops, op.valid) : NoAdjacentFree (run capacity ops) := by
  have _ := hcap
  refine foldl_step_invariant NoAdjacentFree
    (fun chain op hop h => noAdjacentFree_step chain op hop h) ops _ hops ?_
  simp [initializeMemoryAllocator, NoAdjacentFree, Consecutive]

/-- Witness for C2: a run in which the freed block has a free block on each side. -/
theorem no_adjacent_free_invariant_witness :
    (0 < (1024 : Int) ∧
      ∀ op ∈ [Op.alloc 100 FirstFit, Op.alloc 200 FirstFit, Op.alloc 50 FirstFit,
        Op.dealloc 0, Op.dealloc 300, Op.dealloc 100], op.valid) ∧
    NoAdjacentFree (run 1024 [Op.alloc 100 FirstFit, Op.alloc 200 FirstFit,
      Op.alloc 50 FirstFit, Op.dealloc 0, Op.dealloc 300, Op.dealloc 100]) :=
  ⟨by decide, no_adjacent_free_invariant 1024 _ (by decide) (by decide)⟩

/-- C3 (first-fit selection). On every well-formed chain and for every size > 0 for which
some free block has `size >= size`, the walk of `allocateFirstFit` stops at the first
candidate in list order, which is the candidate with the smallest start; the function
returns that block's start and splits that block in place. Moreover, on a fresh allocator of
capacity 1000, allocating 100, then 50, then 200 with FirstFit yields exactly the chain
`[0,100,alloc][100,50,alloc][150,200,alloc][350,650,free]`. -/
theorem first_fit_selection :
    (∀ (capacity : Int) (chain : List MemoryBlock) (size : Int),
      WellFormed capacity chain → 0 < size → (∃ x ∈ chain, Candidate size x) →
      ∃ i b, firstFitLoop size chain 0 = some (i, b) ∧ chain[i]? = some b ∧
        Candidate size b ∧
        (∀ j x, chain[j]? = some x → Candidate size x → i ≤ j ∧ b.start ≤ x.start) ∧
        allocateFirstFit chain size =
          (b.start, chain.take i ++ splitBlock b size ++ chain.drop (i + 1))) ∧
    run 1000 [Op.alloc 100 FirstFit, Op.alloc 50 FirstFit, Op.alloc 200 FirstFit] =
      [⟨0, 100, true⟩, ⟨100, 50, true⟩, ⟨150, 200, true⟩, ⟨350, 650, false⟩] := by
  refine ⟨?_, by decide⟩
  intro capacity chain size hwf _ hex
  obtain ⟨_, hcov⟩ := (wellFormed_iff capacity chain).1 hwf
  rcases firstFitLoop_spec size chain 0 with ⟨_, h2, _⟩ | ⟨i, b, h1, h2, h3, h4, h5⟩
  · obtain ⟨x, hx, hcx⟩ := hex
    exact absurd hcx (h2 x hx)
  · refine ⟨i, b, by simpa using h1, h2, h3, ?_, ?_⟩
    · intro j x hj hcx
      have hij := h4 j x hj hcx
      refine ⟨hij, ?_⟩
      rcases Nat.eq_or_lt_of_le hij with e | hlt
      · subst e
        rw [h2] at hj
        simp only [Option.some.injEq] at hj
        rw [hj]
      · exact le_of_lt (covers_start_lt capacity chain 0 i j b x hcov h2 hj hlt)
    · rw [h5, allocateAt_eq_take_drop chain i b size h2]

/-- Witness for C3: a chain whose first free block is too small for the request. -/
theorem first_fit_selection_witness :
    (WellFormed 1000 [⟨0, 100, true⟩, ⟨100, 50, false⟩, ⟨150, 200, true⟩, ⟨350, 650, false⟩] ∧
      (0 : Int) < 60 ∧
      ∃ x ∈ [(⟨0, 100, true⟩ : MemoryBlock), ⟨100, 50, false⟩, ⟨150, 200, true⟩,
        ⟨350, 650, false⟩], Candidate 60 x) ∧
    ∃ i b, firstFitLoop 60
        [⟨0, 100, true⟩, ⟨100, 50, false⟩, ⟨150, 200, true⟩, ⟨350, 650, false⟩] 0 = some (i, b) ∧
      [(⟨0, 100, true⟩ : MemoryBlock), ⟨100, 50, false⟩, ⟨150, 200, true⟩,
        ⟨350, 650, false⟩][i]? = some b ∧
      Candidate 60 b ∧
      (∀ j x, [(⟨0, 100, true⟩ : MemoryBlock), ⟨100, 50, false⟩, ⟨150, 200, true⟩,
        ⟨350, 650, false⟩][j]? = some x → Candidate 60 x → i ≤ j ∧ b.start ≤ x.start) ∧
      allocateFirstFit
        [⟨0, 100, true⟩, ⟨100, 50, false⟩, ⟨150, 200, true⟩, ⟨350, 650, false⟩] 60 =
        (b.start,
          List.take i [⟨0, 100, true⟩, ⟨100, 50, false⟩, ⟨150, 200, true⟩, ⟨350, 650, false⟩] ++
            splitBlock b 60 ++
          List.drop (i + 1)
            [⟨0, 100, true⟩, ⟨100, 50, false⟩, ⟨150, 200, true⟩, ⟨350, 650, false⟩]) :=
  ⟨by decide, first_fit_selection.1 1000 _ 60 (by decide) (by decide) (by decide)⟩

/-- C4 (best-fit selection). On every chain and for every size > 0 for which some free block
has `size >= size`, the scan of `allocateBestFit` ends with `bestFit` on a candidate whose size
is minimal among all candidates and which is the first of that size in list order; the
function returns that block's start and splits that block in place. Moreover, with free
blocks of sizes 300, 50 and 700 in address order, separated by allocated blocks, a request
of 40 selects the block of size 50. -/
theorem best_fit_selection :
    (∀ (chain : List MemoryBlock) (size : Int),
      0 < size → (∃ x ∈ chain, Candidate size x) →
      ∃ i b, bestFitLoop size chain 0 none = some (i, b) ∧ chain[i]? = some b ∧
        Candidate size b ∧
        (∀ j x, chain[j]? = some x → Candidate size x →
          b.size ≤ x.size ∧ (x.size = b.size → i ≤ j)) ∧
        allocateBestFit chain size =
          (b.start, chain.take i ++ splitBlock b size ++ chain.drop (i + 1))) ∧
    (bestFitLoop 40
        [⟨0, 300, false⟩, ⟨300, 10, true⟩, ⟨310, 50, false⟩, ⟨360, 10, true⟩, ⟨370, 700, false⟩]
        0 none = some (2, ⟨310, 50, false⟩) ∧
      allocateBestFit
        [⟨0, 300, false⟩, ⟨300, 10, true⟩, ⟨310, 50, false⟩, ⟨360, 10, true⟩, ⟨370, 700, false⟩]
        40 =
        (310, [⟨0, 300, false⟩, ⟨300, 10, true⟩, ⟨310, 40, true⟩, ⟨350, 10, false⟩,
          ⟨360, 10, true⟩, ⟨370, 700, false⟩])) := by
  refine ⟨?_, by decide, by decide⟩
  intro chain size _ hex
  rcases fitLoop_start_spec (fun b => b.size) size chain with ⟨_, h2⟩ | ⟨i, b, h1, h2, h3, h4⟩
  · obtain ⟨x, hx, hcx⟩ := hex
    exact absurd hcx (h2 x hx)
  · refine ⟨i, b, by rw [bestFitLoop_eq]; exact h1, h2, h3, h4, ?_⟩
    unfold allocateBestFit
    rw [bestFitLoop_eq, h1]
    simp only
    rw [allocateAt_eq_take_drop chain i b size h2]

/-- Witness for C4: two candidates of the minimal size, the first of which is chosen. -/
theorem best_fit_selection_witness :
    ((0 : Int) < 40 ∧
      ∃ x ∈ [(⟨0, 300, false⟩ : MemoryBlock), ⟨300, 10, true⟩, ⟨310, 50, false⟩,
        ⟨360, 10, true⟩, ⟨370, 50, false⟩], Candidate 40 x) ∧
    ∃ i b, bestFitLoop 40
        [⟨0, 300, false⟩, ⟨300, 10, true⟩, ⟨310, 50, false⟩, ⟨360, 10, true⟩, ⟨370, 50, false⟩]
        0 none = some (i, b) ∧
      [(⟨0, 300, false⟩ : MemoryBlock), ⟨300, 10, true⟩, ⟨310, 50, false⟩, ⟨360, 10, true⟩,
        ⟨370, 50, false⟩][i]? = some b ∧
      Candidate 40 b ∧
      (∀ j x, [(⟨0, 300, false⟩ : MemoryBlock), ⟨300, 10, true⟩, ⟨310, 50, false⟩,
        ⟨360, 10, true⟩, ⟨370, 50, false⟩][j]? = some x → Candidate 40 x →
          b.size ≤ x.size ∧ (x.size = b.size → i ≤ j)) ∧
      allocateBestFit
        [⟨0, 300, false⟩, ⟨300, 10, true⟩, ⟨310, 50, false⟩, ⟨360, 10, true⟩, ⟨370, 50, false⟩]
        40 =
        (b.start,
          List.take i [⟨0, 300, false⟩, ⟨300, 10, true⟩, ⟨310, 50, false⟩, ⟨360, 10, true⟩,
            ⟨370, 50, false⟩] ++ splitBlock b 40 ++
          List.drop (i + 1) [⟨0, 300, false⟩, ⟨300, 10, true⟩, ⟨310, 50, false⟩,
            ⟨360, 10, true⟩, ⟨370, 50, false⟩]) :=
  ⟨by decide, best_fit_selection.1 _ 40 (by decide) (by decide)⟩

/-- C5 (worst-fit selection). On every chain and for every size > 0 for which some free block
has `size >= size`, the scan of `allocateWorstFit` ends with `worstFit` on a candidate whose
size is maximal among all candidates and which is the first of that size in list order; the
function returns that block's start and splits that block in place. Moreover, with free
blocks of sizes 300, 50 and 700 in address order, separated by allocated blocks, a request
of 40 selects the block of size 700. -/
theorem worst_fit_selection :
    (∀ (chain : List MemoryBlock) (size : Int),
      0 < size → (∃ x ∈ chain, Candidate size x) →
      ∃ i b, worstFitLoop size chain 0 none = some (i, b) ∧ chain[i]? = some b ∧
        Candidate size b ∧
        (∀ j x, chain[j]? = some x → Candidate size x →
          x.size ≤ b.size ∧ (x.size = b.size → i ≤ j)) ∧
        allocateWorstFit chain size =
          (b.start, chain.take i ++ splitBlock b size ++ chain.drop (i + 1))) ∧
    (worstFitLoop 40
        [⟨0, 300, false⟩, ⟨300, 10, true⟩, ⟨310, 50, false⟩, ⟨360, 10, true⟩, ⟨370, 700, false⟩]
        0 none = some (4, ⟨370, 700, false⟩) ∧
      allocateWorstFit
        [⟨0, 300, false⟩, ⟨300, 10, true⟩, ⟨310, 50, false⟩, ⟨360, 10, true⟩, ⟨370, 700, false⟩]
        40 =
        (370, [⟨0, 300, false⟩, ⟨300, 10, true⟩, ⟨310, 50, false⟩, ⟨360, 10, true⟩,
          ⟨370, 40, true⟩, ⟨410, 660, false⟩])) := by
  refine ⟨?_, by decide, by decide⟩
  intro chain size _ hex
  rcases fitLoop_start_spec (fun b => - b.size) size chain with
    ⟨_, h2⟩ | ⟨i, b, h1, h2, h3, h4⟩
  · obtain ⟨x, hx, hcx⟩ := hex
    exact absurd hcx (h2 x hx)
  · refine ⟨i, b, by rw [worstFitLoop_eq]; exact h1, h2, h3, ?_, ?_⟩
    · intro j x hj hcx
      obtain ⟨h5, h6⟩ := h4 j x hj hcx
      exact ⟨neg_le_neg_iff.mp h5, fun e => h6 (by simp only [e])⟩
    · unfold allocateWorstFit
      rw [worstFitLoop_eq, h1]
      simp only
      rw [allocateAt_eq_take_drop chain i b size h2]

/-- Witness for C5: two candidates of the maximal size, the first of which is chosen. -/
theorem worst_fit_selection_witness :
    ((0 : Int) < 40 ∧
      ∃ x ∈ [(⟨0, 700, false⟩ : MemoryBlock), ⟨700, 10, true⟩, ⟨710, 50, false⟩,
        ⟨760, 10, true⟩, ⟨770, 700, false⟩], Candidate 40 x) ∧
    ∃ i b, worstFitLoop 40
        [⟨0, 700, false⟩, ⟨700, 10, true⟩, ⟨710, 50, false⟩, ⟨760, 10, true⟩, ⟨770, 700, false⟩]
        0 none = some (i, b) ∧
      [(⟨0, 700, false⟩ : MemoryBlock), ⟨700, 10, true⟩, ⟨710, 50, false⟩, ⟨760, 10, true⟩,
        ⟨770, 700, false⟩][i]? = some b ∧
      Candidate 40 b ∧
      (∀ j x, [(⟨0, 700, false⟩ : MemoryBlock), ⟨700, 10, true⟩, ⟨710, 50, false⟩,
        ⟨760, 10, true⟩, ⟨770, 700, false⟩][j]? = some x → Candidate 40 x →
          x.size ≤ b.size ∧ (x.size = b.size → i ≤ j)) ∧
      allocateWorstFit
        [⟨0, 700, false⟩, ⟨700, 10, true⟩, ⟨710, 50, false⟩, ⟨760, 10, true⟩, ⟨770, 700, false⟩]
        40 =
        (b.start,
          List.take i [⟨0, 700, false⟩, ⟨700, 10, true⟩, ⟨710, 50, false⟩, ⟨760, 10, true⟩,
            ⟨770, 700, false⟩] ++ splitBlock b 40 ++
          List.drop (i + 1) [⟨0, 700, false⟩, ⟨700, 10, true⟩, ⟨710, 50, false⟩,
            ⟨760, 10, true⟩, ⟨770, 700, false⟩]) :=
  ⟨by decide, worst_fit_selection.1 _ 40 (by decide) (by decide)⟩

/-- C6 (split postcondition). For every chain, each of the three strategies and every
size > 0 for which some free block has `size >= size`, and for which the start of the
remainder of the selected block, `B.start + size`, is a value of type `int` (so that the
addition `current->start + size` does not overflow), `allocateMemory` selects a block `B`
at some position `i`; `B` is free with `B.size >= size`, the returned pointer is `B.start`,
and the chain after the call is the chain before it with `B` replaced by the single block
`(B.start, size, allocated)` when `B.size == size`, and by the two blocks
`(B.start, size, allocated)`, `(B.start + size, B.size - size, free)` when `B.size > size`;
the blocks before and after position `i` are the same and in the same order. -/
theorem split_postcondition (chain : List MemoryBlock) (size : Int) (strategy : String)
    (hsize : 0 < size)
    (hs : strategy = FirstFit ∨ strategy = BestFit ∨ strategy = WorstFit)
    (hex : ∃ x ∈ chain, Candidate size x)
    (hint : ∀ i B, selectedBlock chain size strategy = some (i, B) →
      B.start + size ≤ INT_MAX) :
    ∃ i B, selectedBlock chain size strategy = some (i, B) ∧ chain[i]? = some B ∧
      B.allocated = false ∧ size ≤ B.size ∧ B.start + size ≤ INT_MAX ∧
      (allocateMemory chain size strategy).1 = B.start ∧
      (B.size = size →
        (allocateMemory chain size strategy).2 =
          chain.take i ++ [⟨B.start, size, true⟩] ++ chain.drop (i + 1)) ∧
      (B.size > size →
        (allocateMemory chain size strategy).2 =
          chain.take i ++ [⟨B.start, size, true⟩, ⟨B.start + size, B.size - size, false⟩] ++
            chain.drop (i + 1)) := by
  have _ := hsize
  rcases select_spec chain size strategy hs with ⟨_, h2, _⟩ | ⟨i, b, h1, h2, h3, h4⟩
  · obtain ⟨x, hx, hcx⟩ := hex
    exact absurd hcx (h2 x hx)
  · refine ⟨i, b, h1, h2, h3.1, h3.2, hint i b h1, by rw [h4], ?_, ?_⟩
    · intro he
      rw [h4, allocateAt_eq_take_drop chain i b size h2]
      simp [splitBlock, he]
    · intro hgt
      rw [h4, allocateAt_eq_take_drop chain i b size h2]
      simp [splitBlock, hgt]

/-- Witness for C6: a Best Fit request whose remainder ends at the largest `int`: the free
block `(2147483000, 647)` is split for a request of 600. -/
theorem split_postcondition_witness :
    ((0 : Int) < 600 ∧ (BestFit = FirstFit ∨ BestFit = BestFit ∨ BestFit = WorstFit) ∧
      (∃ x ∈ [(⟨0, 1000, false⟩ : MemoryBlock), ⟨1000, 2147482000, true⟩,
        ⟨2147483000, 647, false⟩], Candidate 600 x) ∧
      ∀ i B, selectedBlock [⟨0, 1000, false⟩, ⟨1000, 2147482000, true⟩,
        ⟨2147483000, 647, false⟩] 600 BestFit = some (i, B) → B.start + 600 ≤ INT_MAX) ∧
    ∃ i B, selectedBlock [⟨0, 1000, false⟩, ⟨1000, 2147482000, true⟩,
        ⟨2147483000, 647, false⟩] 600 BestFit = some (i, B) ∧
      [(⟨0, 1000, false⟩ : MemoryBlock), ⟨1000, 2147482000, true⟩,
        ⟨2147483000, 647, false⟩][i]? = some B ∧
      B.allocated = false ∧ 600 ≤ B.size ∧ B.start + 600 ≤ INT_MAX ∧
      (allocateMemory [⟨0, 1000, false⟩, ⟨1000, 2147482000, true⟩,
        ⟨2147483000, 647, false⟩] 600 BestFit).1 = B.start ∧
      (B.size = 600 →
        (allocateMemory [⟨0, 1000, false⟩, ⟨1000, 2147482000, true⟩,
          ⟨2147483000, 647, false⟩] 600 BestFit).2 =
          List.take i [⟨0, 1000, false⟩, ⟨1000, 2147482000, true⟩,
            ⟨2147483000, 647, false⟩] ++ [⟨B.start, 600, true⟩] ++
          List.drop (i + 1) [⟨0, 1000, false⟩, ⟨1000, 2147482000, true⟩,
            ⟨2147483000, 647, false⟩]) ∧
      (B.size > 600 →
        (allocateMemory [⟨0, 1000, false⟩, ⟨1000, 2147482000, true⟩,
          ⟨2147483000, 647, false⟩] 600 BestFit).2 =
          List.take i [⟨0, 1000, false⟩, ⟨1000, 2147482000, true⟩,
            ⟨2147483000, 647, false⟩] ++
            [⟨B.start, 600, true⟩, ⟨B.start + 600, B.size - 600, false⟩] ++
          List.drop (i + 1) [⟨0, 1000, false⟩, ⟨1000, 2147482000, true⟩,
            ⟨2147483000, 647, false⟩]) :=
  have hsel : selectedBlock [⟨0, 1000, false⟩, ⟨1000, 2147482000, true⟩,
      ⟨2147483000, 647, false⟩] 600 BestFit = some (2, ⟨2147483000, 647, false⟩) := by decide
  have hint : ∀ i B, selectedBlock [⟨0, 1000, false⟩, ⟨1000, 2147482000, true⟩,
      ⟨2147483000, 647, false⟩] 600 BestFit = some (i, B) → B.start + 600 ≤ INT_MAX := by
    intro i B h
    rw [hsel] at h
    simp only [Option.some.injEq, Prod.mk.injEq] at h
    rw [← h.2]
    decide
  ⟨⟨by decide, by decide, by decide, hint⟩,
    split_postcondition _ 600 BestFit (by decide) (by decide) (by decide) hint⟩

/-- C7 (out-of-memory atomicity). For every chain, each of the three strategies and every
size > 0 such that no free block has `size >= size`, `allocateMemory` returns `NULL` and the
chain after the call is the chain before it. -/
theorem out_of_memory_atomicity (chain : List MemoryBlock) (size : Int) (strategy : String)
    (hsize : 0 < size)
    (hs : strategy = FirstFit ∨ strategy = BestFit ∨ strategy = WorstFit)
    (hnone : ∀ b ∈ chain, ¬ (b.allocated = false ∧ size ≤ b.size)) :
    allocateMemory chain size strategy = (NULL, chain) := by
  have _ := hsize
  rcases select_spec chain size strategy hs with ⟨_, _, h3⟩ | ⟨i, b, _, h2, h3, _⟩
  · exact h3
  · exact absurd h3 (hnone b (List.getElem?_mem h2))

/-- Witness for C7: a Worst Fit request of 60 on a chain whose only free block has size 50
(and, with it, the case of a chain without any free block is covered by the theorem). -/
theorem out_of_memory_atomicity_witness :
    ((0 : Int) < 60 ∧ (WorstFit = FirstFit ∨ WorstFit = BestFit ∨ WorstFit = WorstFit) ∧
      ∀ b ∈ [(⟨0, 100, true⟩ : MemoryBlock), ⟨100, 50, false⟩, ⟨150, 874, true⟩],
        ¬ (b.allocated = false ∧ 60 ≤ b.size)) ∧
    allocateMemory [⟨0, 100, true⟩, ⟨100, 50, false⟩, ⟨150, 874, true⟩] 60 WorstFit =
      (NULL, [⟨0, 100, true⟩, ⟨100, 50, false⟩, ⟨150, 874, true⟩]) :=
  ⟨by decide, out_of_memory_atomicity _ 60 WorstFit (by decide) (by decide) (by decide)⟩

/-- C8, evaluated at the failing input: on the fresh allocator of capacity 1024 the block
`(0, 1024, free)` is a candidate for a request of 50, each of the three strategies takes the
block at position 0 and splits it, and the pointer returned is `NULL`, the value that is also
returned when there is no candidate. -/
theorem success_at_offset_zero_returns_null :
    (∃ x ∈ initializeMemoryAllocator 1024, Candidate 50 x) ∧
    selectedBlock (initializeMemoryAllocator 1024) 50 FirstFit = some (0, ⟨0, 1024, false⟩) ∧
    allocateMemory (initializeMemoryAllocator 1024) 50 FirstFit =
      (NULL, [⟨0, 50, true⟩, ⟨50, 974, false⟩]) ∧
    allocateMemory (initializeMemoryAllocator 1024) 50 BestFit =
      (NULL, [⟨0, 50, true⟩, ⟨50, 974, false⟩]) ∧
    allocateMemory (initializeMemoryAllocator 1024) 50 WorstFit =
      (NULL, [⟨0, 50, true⟩, ⟨50, 974, false⟩]) := by
  decide

/-- C9 (invalid-handle atomicity). For every chain and every pointer whose token, the `int`
that `deallocateMemory` reads from it, is not the start of an allocated block (an offset that
is no block start, the token -1, the start of a free block), `deallocateMemory` leaves
through the branch that reports the invalid pointer and the chain after the call is the
chain before it. A token that has just been deallocated is such a token: on a well-formed
chain a second `deallocateMemory` with the same pointer reports the invalid pointer and
changes nothing. -/
theorem invalid_handle_atomicity :
    (∀ (chain : List MemoryBlock) (ptr : Int),
      (∀ b ∈ chain, ¬ (b.start = ptrToInt ptr ∧ b.allocated = true)) →
      deallocateMemory chain ptr = { chain := chain, invalid := true }) ∧
    (∀ (capacity : Int) (chain : List MemoryBlock) (ptr : Int),
      WellFormed capacity chain →
      deallocateMemory (deallocateMemory chain ptr).chain ptr =
        { chain := (deallocateMemory chain ptr).chain, invalid := true }) := by
  have first : ∀ (chain : List MemoryBlock) (ptr : Int),
      (∀ b ∈ chain, ¬ (b.start = ptrToInt ptr ∧ b.allocated = true)) →
      deallocateMemory chain ptr = { chain := chain, invalid := true } := by
    intro chain ptr hnone
    unfold deallocateMemory
    rw [markFree_none (ptrToInt ptr) chain hnone]
  refine ⟨first, ?_⟩
  intro capacity chain ptr hwf
  obtain ⟨_, hcov⟩ := (wellFormed_iff capacity chain).1 hwf
  apply first
  intro b hb
  unfold deallocateMemory at hb
  cases hm : markFree (ptrToInt ptr) chain with
  | none =>
    rw [hm] at hb
    simp only at hb
    intro hbs
    have hsome := markFree_isSome (ptrToInt ptr) chain b hb hbs.1 hbs.2
    obtain ⟨freed, hf⟩ := hsome
    rw [hm] at hf
    exact absurd hf (by simp)
  | some freed =>
    rw [hm] at hb
    simp only at hb
    intro hbs
    have hmem : b ∈ (coalesceMemory freed).filter (fun x => x.allocated) :=
      List.mem_filter.2 ⟨hb, hbs.2⟩
    rw [allocated_coalesceMemory] at hmem
    exact markFree_no_allocated capacity (ptrToInt ptr) chain freed 0 hcov hm b
      (List.mem_filter.1 hmem).1 hbs

/-- Witness for C9: the token -1 on the chain left by the three allocations of C3, and the
token 100 deallocated twice on that chain. -/
theorem invalid_handle_atomicity_witness :
    ((∀ b ∈ [(⟨0, 100, true⟩ : MemoryBlock), ⟨100, 50, true⟩, ⟨150, 200, true⟩,
        ⟨350, 650, false⟩], ¬ (b.start = ptrToInt (-1) ∧ b.allocated = true)) ∧
      deallocateMemory [⟨0, 100, true⟩, ⟨100, 50, true⟩, ⟨150, 200, true⟩, ⟨350, 650, false⟩]
          (-1) =
        { chain := [⟨0, 100, true⟩, ⟨100, 50, true⟩, ⟨150, 200, true⟩, ⟨350, 650, false⟩],
          invalid := true }) ∧
    (WellFormed 1000 [⟨0, 100, true⟩, ⟨100, 50, true⟩, ⟨150, 200, true⟩, ⟨350, 650, false⟩] ∧
      deallocateMemory
          (deallocateMemory
            [⟨0, 100, true⟩, ⟨100, 50, true⟩, ⟨150, 200, true⟩, ⟨350, 650, false⟩] 100).chain
          100 =
        { chain := (deallocateMemory
            [⟨0, 100, true⟩, ⟨100, 50, true⟩, ⟨150, 200, true⟩, ⟨350, 650, false⟩] 100).chain,
          invalid := true }) :=
  ⟨⟨by decide, invalid_handle_atomicity.1 _ (-1) (by decide)⟩,
    ⟨by decide, invalid_handle_atomicity.2 1000 _ 100 (by decide)⟩⟩

/-- C10 (round trip). For every chain that is well formed for a capacity that fits in an
`int` and has no two adjacent free blocks, each of the three strategies and every size > 0
for which some free block has `size >= size` (so that `allocateMemory` takes its success
path), calling `deallocateMemory` on the returned pointer right after `allocateMemory` takes
the success branch and yields the chain before the allocation, block for block. -/
theorem round_trip (capacity : Int) (chain : List MemoryBlock) (size : Int)
    (strategy : String) (hcap : capacity ≤ INT_MAX) (hwf : WellFormed capacity chain)
    (hnaf : NoAdjacentFree chain) (hsize : 0 < size)
    (hs : strategy = FirstFit ∨ strategy = BestFit ∨ strategy = WorstFit)
    (hex : ∃ x ∈ chain, Candidate size x) :
    deallocateMemory (allocateMemory chain size strategy).2
        (allocateMemory chain size strategy).1 =
      { chain := chain, invalid := false } := by
  obtain ⟨_, hcov⟩ := (wellFormed_iff capacity chain).1 hwf
  rcases select_spec chain size strategy hs with ⟨_, h2, _⟩ | ⟨i, b, _, h2, h3, h4⟩
  · obtain ⟨x, hx, hcx⟩ := hex
    exact absurd hcx (h2 x hx)
  · have hge := covers_start_ge capacity chain 0 i b hcov h2
    have hend := covers_end_le capacity chain 0 i b hcov h2
    have hpos : 0 < b.size := lt_of_lt_of_le hsize h3.2
    have hptr : ptrToInt b.start = b.start :=
      ptrToInt_of_int b.start (by linarith) (by linarith)
    obtain ⟨freed, hm, hco, _⟩ := roundtrip_at capacity size chain 0 i b hcov hnaf h2 h3
    rw [h4]
    simp only [deallocateMemory, hptr, hm, hco]

/-- Witness for C10: a First Fit allocation at offset 0, whose pointer is `NULL`. -/
theorem round_trip_witness :
    ((1024 : Int) ≤ INT_MAX ∧
      WellFormed 1024 [⟨0, 100, false⟩, ⟨100, 200, true⟩, ⟨300, 724, false⟩] ∧
      NoAdjacentFree [⟨0, 100, false⟩, ⟨100, 200, true⟩, ⟨300, 724, false⟩] ∧
      (0 : Int) < 75 ∧ (FirstFit = FirstFit ∨ FirstFit = BestFit ∨ FirstFit = WorstFit) ∧
      ∃ x ∈ [(⟨0, 100, false⟩ : MemoryBlock), ⟨100, 200, true⟩, ⟨300, 724, false⟩],
        Candidate 75 x) ∧
    deallocateMemory
        (allocateMemory [⟨0, 100, false⟩, ⟨100, 200, true⟩, ⟨300, 724, false⟩] 75 FirstFit).2
        (allocateMemory [⟨0, 100, false⟩, ⟨100, 200, true⟩, ⟨300, 724, false⟩] 75 FirstFit).1 =
      { chain := [⟨0, 100, false⟩, ⟨100, 200, true⟩, ⟨300, 724, false⟩], invalid := false } :=
  ⟨by decide, round_trip 1024 _ 75 FirstFit (by decide) (by decide) (by decide) (by decide)
    (by decide) (by decide)⟩

/-- C11 (deallocate frees exactly one allocation). For every well-formed chain and every
pointer whose token is the start of an allocated block `b`, `deallocateMemory` takes its
success branch and the allocated blocks of the chain after the call, in chain order, are
the allocated blocks before the call with `b` removed: every other allocated block is still
there with its start and size, and no new one appears. So the multiset of the
`(start, size)` pairs of the allocated blocks before the call is the one after the call plus
the pair of `b`. -/
theorem deallocate_frees_exactly_one (capacity : Int) (chain : List MemoryBlock) (ptr : Int)
    (b : MemoryBlock) (hwf : WellFormed capacity chain) (hb : b ∈ chain)
    (hstart : b.start = ptrToInt ptr) (halloc : b.allocated = true) :
    (deallocateMemory chain ptr).invalid = false ∧
    (deallocateMemory chain ptr).chain.filter (fun x => x.allocated) =
      (chain.filter (fun x => x.allocated)).erase b ∧
    (b.start, b.size) ::ₘ
        (((deallocateMemory chain ptr).chain.filter (fun x => x.allocated)).map
          (fun x => (x.start, x.size)) : Multiset (Int × Int)) =
      ((chain.filter (fun x => x.allocated)).map (fun x => (x.start, x.size)) :
        Multiset (Int × Int)) := by
  obtain ⟨_, hcov⟩ := (wellFormed_iff capacity chain).1 hwf
  obtain ⟨freed, hm⟩ := markFree_isSome (ptrToInt ptr) chain b hb hstart halloc
  have hf := markFree_filter capacity (ptrToInt ptr) chain freed 0 b hcov hb hstart halloc hm
  have hchain : (deallocateMemory chain ptr).chain.filter (fun x => x.allocated) =
      (chain.filter (fun x => x.allocated)).erase b := by
    simp only [deallocateMemory, hm]
    rw [allocated_coalesceMemory, hf]
  refine ⟨by simp only [deallocateMemory, hm], hchain, ?_⟩
  have hmem : b ∈ chain.filter (fun x => x.allocated) := List.mem_filter.2 ⟨hb, halloc⟩
  rw [hchain, Multiset.cons_coe, Multiset.coe_eq_coe]
  exact ((List.perm_cons_erase hmem).map (fun x => (x.start, x.size))).symm


/-- Witness for C11: the middle one of three allocated blocks, whose neighbours are both
allocated, is deallocated. -/
theorem deallocate_frees_exactly_one_witness :
    (WellFormed 1000 [⟨0, 100, true⟩, ⟨100, 50, true⟩, ⟨150, 200, true⟩, ⟨350, 650, false⟩] ∧
      (⟨100, 50, true⟩ : MemoryBlock) ∈
        [(⟨0, 100, true⟩ : MemoryBlock), ⟨100, 50, true⟩, ⟨150, 200, true⟩, ⟨350, 650, false⟩] ∧
      (⟨100, 50, true⟩ : MemoryBlock).start = ptrToInt 100 ∧
      (⟨100, 50, true⟩ : MemoryBlock).allocated = true) ∧
    ((deallocateMemory
        [⟨0, 100, true⟩, ⟨100, 50, true⟩, ⟨150, 200, true⟩, ⟨350, 650, false⟩] 100).invalid =
        false ∧
      (deallocateMemory
        [⟨0, 100, true⟩, ⟨100, 50, true⟩, ⟨150, 200, true⟩, ⟨350, 650, false⟩] 100).chain.filter
          (fun x => x.allocated) =
        ([(⟨0, 100, true⟩ : MemoryBlock), ⟨100, 50, true⟩, ⟨150, 200, true⟩,
          ⟨350, 650, false⟩].filter (fun x => x.allocated)).erase ⟨100, 50, true⟩ ∧
      ((⟨100, 50, true⟩ : MemoryBlock).start, (⟨100, 50, true⟩ : MemoryBlock).size) ::ₘ
          (((deallocateMemory
            [⟨0, 100, true⟩, ⟨100, 50, true⟩, ⟨150, 200, true⟩, ⟨350, 650, false⟩]
            100).chain.filter (fun x => x.allocated)).map
            (fun x => (x.start, x.size)) : Multiset (Int × Int)) =
        (([(⟨0, 100, true⟩ : MemoryBlock), ⟨100, 50, true⟩, ⟨150, 200, true⟩,
          ⟨350, 650, false⟩].filter (fun x => x.allocated)).map (fun x => (x.start, x.size)) :
          Multiset (Int × Int))) :=
  ⟨by decide, deallocate_frees_exactly_one 1000 _ 100 ⟨100, 50, true⟩ (by decide) (by decide)
    (by decide) (by decide)⟩


/-- Counterexample for C12: the chain `[0,0,free][0,1024,alloc]`, which the calls
`allocateMemory(0)`, `allocateMemory(1024)`, `deallocateMemory(0)` leave on a fresh allocator
of capacity 1024, is returned by `coalesceMemory` as it is, with one free block, although the
well-formed chain `[0,1024,alloc]` has the same allocated blocks, the same total size and no
free block: on a chain with a free block of size 0 the result does not have the smallest
possible number of free blocks. -/
theorem coalesce_not_minimal_with_empty_free_block :
    run 1024 [Op.alloc 0 FirstFit, Op.alloc 1024 FirstFit, Op.dealloc 0] =
      [⟨0, 0, false⟩, ⟨0, 1024, true⟩] ∧
    coalesceInRange [⟨0, 0, false⟩, ⟨0, 1024, true⟩] = true ∧
    coalesceMemory [⟨0, 0, false⟩, ⟨0, 1024, true⟩] = [⟨0, 0, false⟩, ⟨0, 1024, true⟩] ∧
    WellFormed 1024 [⟨0, 1024, true⟩] ∧
    [(⟨0, 1024, true⟩ : MemoryBlock)].filter (fun b => b.allocated) =
      [(⟨0, 0, false⟩ : MemoryBlock), ⟨0, 1024, true⟩].filter (fun b => b.allocated) ∧
    totalSize [⟨0, 1024, true⟩] = totalSize [⟨0, 0, false⟩, ⟨0, 1024, true⟩] ∧
    countFree [⟨0, 1024, true⟩] <
      countFree (coalesceMemory [⟨0, 0, false⟩, ⟨0, 1024, true⟩]) := by
  decide

/-- C12, amended. For every chain, well formed or not, on which no addition of the loop
overflows the type `int`, `coalesceMemory` returns the chain in which every allocated block
is kept and every maximal run of consecutive free blocks is replaced by one free block with
the start of the first block of the run and the sum of the sizes of the run
(`specCoalesce`); the allocated blocks are the same and in the same order, the result has no
two consecutive free blocks and the same total size, and no chain with the same allocated
blocks and the same merged free runs has fewer free blocks. Every chain that is well formed
for a capacity of type `int` is such a chain, and for it the number of free blocks of the
result is the least among all well-formed chains of that capacity with the same allocated
blocks. -/
theorem coalesce_minimal_exact :
    (∀ (chain : List MemoryBlock), coalesceInRange chain = true →
      coalesceMemory chain = specCoalesce chain ∧
      (coalesceMemory chain).filter (fun b => b.allocated) =
        chain.filter (fun b => b.allocated) ∧
      NoAdjacentFree (coalesceMemory chain) ∧
      totalSize (coalesceMemory chain) = totalSize chain ∧
      ∀ (d : List MemoryBlock), specCoalesce d = specCoalesce chain →
        countFree (coalesceMemory chain) ≤ countFree d) ∧
    (∀ (capacity : Int) (chain d : List MemoryBlock), capacity ≤ INT_MAX →
      WellFormed capacity chain → WellFormed capacity d →
      d.filter (fun b => b.allocated) = chain.filter (fun b => b.allocated) →
      coalesceInRange chain = true ∧
      countFree (coalesceMemory chain) ≤ countFree d) ∧
    coalesceMemory
        [⟨0, 10, false⟩, ⟨10, 20, false⟩, ⟨30, 5, true⟩, ⟨35, 5, false⟩, ⟨40, 1, false⟩,
          ⟨41, 9, false⟩, ⟨50, 7, true⟩, ⟨57, 3, true⟩] =
      [⟨0, 30, false⟩, ⟨30, 5, true⟩, ⟨35, 15, false⟩, ⟨50, 7, true⟩, ⟨57, 3, true⟩] := by
  refine ⟨?_, ?_, by decide⟩
  · intro chain _
    refine ⟨coalesceMemory_eq_specCoalesce chain.length chain (le_refl _),
      allocated_coalesceMemory chain, noAdjacentFree_coalesceMemory chain, ?_, ?_⟩
    · cases chain with
      | nil => rfl
      | cons a rest =>
        simp only [coalesceMemory]
        rw [totalSize_coalesceFrom]
        simp [totalSize]
    · intro d hd
      have e : coalesceMemory chain = coalesceMemory d := by
        rw [coalesceMemory_eq_specCoalesce chain.length chain (le_refl _),
          coalesceMemory_eq_specCoalesce d.length d (le_refl _), hd]
      rw [e]
      exact countFree_coalesceMemory d
  · intro capacity chain d hcap hc hd hf
    refine ⟨coalesceInRange_of_wellFormed capacity chain hcap hc, ?_⟩
    obtain ⟨_, hcc⟩ := (wellFormed_iff capacity chain).1 hc
    obtain ⟨_, hcd⟩ := (wellFormed_iff capacity d).1 hd
    have e : coalesceMemory chain = coalesceMemory d :=
      covers_noAdjacentFree_unique capacity _ _ 0
        (covers_coalesceMemory capacity 0 chain hcc) (covers_coalesceMemory capacity 0 d hcd)
        (noAdjacentFree_coalesceMemory chain) (noAdjacentFree_coalesceMemory d)
        (by rw [allocated_coalesceMemory, allocated_coalesceMemory, hf])
    rw [e]
    exact countFree_coalesceMemory d

/-- Witness for C12: an ill-formed chain (a gap, an overlap, a free run of three blocks) whose
sums stay far below the largest `int`; a chain with a run of three free blocks compared with
a chain that has the same allocated blocks and splits the free space differently; and two
chains with the same merged free runs. -/
theorem coalesce_minimal_exact_witness :
    (coalesceInRange [⟨7, 5, false⟩, ⟨3, 5, false⟩, ⟨40, 10, false⟩, ⟨50, 10, true⟩] = true ∧
      coalesceMemory [⟨7, 5, false⟩, ⟨3, 5, false⟩, ⟨40, 10, false⟩, ⟨50, 10, true⟩] =
        specCoalesce [⟨7, 5, false⟩, ⟨3, 5, false⟩, ⟨40, 10, false⟩, ⟨50, 10, true⟩] ∧
      coalesceMemory [⟨7, 5, false⟩, ⟨3, 5, false⟩, ⟨40, 10, false⟩, ⟨50, 10, true⟩] =
        [⟨7, 20, false⟩, ⟨50, 10, true⟩] ∧
      (specCoalesce [⟨7, 12, false⟩, ⟨19, 8, false⟩, ⟨50, 10, true⟩] =
          specCoalesce [⟨7, 5, false⟩, ⟨3, 5, false⟩, ⟨40, 10, false⟩, ⟨50, 10, true⟩] →
        countFree (coalesceMemory
            [⟨7, 5, false⟩, ⟨3, 5, false⟩, ⟨40, 10, false⟩, ⟨50, 10, true⟩]) ≤
          countFree [⟨7, 12, false⟩, ⟨19, 8, false⟩, ⟨50, 10, true⟩]) ∧
      specCoalesce [⟨7, 12, false⟩, ⟨19, 8, false⟩, ⟨50, 10, true⟩] =
        specCoalesce [⟨7, 5, false⟩, ⟨3, 5, false⟩, ⟨40, 10, false⟩, ⟨50, 10, true⟩]) ∧
    ((60 : Int) ≤ INT_MAX ∧
      WellFormed 60 [⟨0, 30, true⟩, ⟨30, 5, false⟩, ⟨35, 5, false⟩, ⟨40, 10, false⟩,
        ⟨50, 10, true⟩] ∧
      WellFormed 60 [⟨0, 30, true⟩, ⟨30, 12, false⟩, ⟨42, 8, false⟩, ⟨50, 10, true⟩] ∧
      [(⟨0, 30, true⟩ : MemoryBlock), ⟨30, 12, false⟩, ⟨42, 8, false⟩,
          ⟨50, 10, true⟩].filter (fun b => b.allocated) =
        [(⟨0, 30, true⟩ : MemoryBlock), ⟨30, 5, false⟩, ⟨35, 5, false⟩, ⟨40, 10, false⟩,
          ⟨50, 10, true⟩].filter (fun b => b.allocated)) ∧
    (coalesceInRange [⟨0, 30, true⟩, ⟨30, 5, false⟩, ⟨35, 5, false⟩, ⟨40, 10, false⟩,
        ⟨50, 10, true⟩] = true ∧
      countFree (coalesceMemory [⟨0, 30, true⟩, ⟨30, 5, false⟩, ⟨35, 5, false⟩, ⟨40, 10, false⟩,
          ⟨50, 10, true⟩]) ≤
        countFree [⟨0, 30, true⟩, ⟨30, 12, false⟩, ⟨42, 8, false⟩, ⟨50, 10, true⟩]) :=
  ⟨⟨by decide, (coalesce_minimal_exact.1 _ (by decide)).1, by decide,
      (coalesce_minimal_exact.1 _ (by decide)).2.2.2.2 _, by simp [specCoalesce]⟩,
    by decide, coalesce_minimal_exact.2.1 60 _ _ (by decide) (by decide) (by decide) (by decide)⟩

/-- C13 (fragmentation scenario). The First Fit script of `main` in `updated.c`, starting
from `initializeMemoryAllocator(1024)`: allocate 100, 200, 50, deallocate the pointer of the
200-block, allocate 75, deallocate the pointer returned by the first allocation, allocate
125. The chains after each step are the ones listed, the last one is
`[0,100,free][100,75,alloc][175,125,alloc][300,50,alloc][350,674,free]`, its free capacity
is `1024 - 100 - 200 - 50 + 200 - 75 + 100 - 125 = 774`, and every chain on the way is well
formed and has no two adjacent free blocks. -/
theorem fragmentation_scenario :
    mainFirstFit =
      [[⟨0, 1024, false⟩],
       [⟨0, 100, true⟩, ⟨100, 924, false⟩],
       [⟨0, 100, true⟩, ⟨100, 200, true⟩, ⟨300, 724, false⟩],
       [⟨0, 100, true⟩, ⟨100, 200, true⟩, ⟨300, 50, true⟩, ⟨350, 674, false⟩],
       [⟨0, 100, true⟩, ⟨100, 200, false⟩, ⟨300, 50, true⟩, ⟨350, 674, false⟩],
       [⟨0, 100, true⟩, ⟨100, 75, true⟩, ⟨175, 125, false⟩, ⟨300, 50, true⟩,
         ⟨350, 674, false⟩],
       [⟨0, 100, false⟩, ⟨100, 75, true⟩, ⟨175, 125, false⟩, ⟨300, 50, true⟩,
         ⟨350, 674, false⟩],
       [⟨0, 100, false⟩, ⟨100, 75, true⟩, ⟨175, 125, true⟩, ⟨300, 50, true⟩,
         ⟨350, 674, false⟩]] ∧
    mainFirstFit.getLast? =
      some [⟨0, 100, false⟩, ⟨100, 75, true⟩, ⟨175, 125, true⟩, ⟨300, 50, true⟩,
        ⟨350, 674, false⟩] ∧
    mainFirstFit.getLast?.map freeCapacity =
      some (1024 - 100 - 200 - 50 + 200 - 75 + 100 - 125) ∧
    mainFirstFit.getLast?.map freeCapacity = some 774 ∧
    ∀ chain ∈ mainFirstFit, WellFormed 1024 chain ∧ NoAdjacentFree chain := by
  decide


/-- Counterexample for C14: on an allocator of capacity 10, with the single size 50 and three
iterations, the first `allocateMemory` call of the harness in `updated.c` finds no candidate
and returns `NULL`, and the harness makes two more `allocateMemory` calls after it. -/
theorem harness_continues_after_failure :
    (∀ b ∈ initializeMemoryAllocator 10, ¬ Candidate 50 b) ∧
    (measurePerformance (initializeMemoryAllocator 10) FirstFit [50] 3 1).1 =
      [Call.allocate 50 NULL, Call.allocate 50 NULL, Call.allocate 50 NULL] ∧
    ¬ StopsAtFailure (measurePerformance (initializeMemoryAllocator 10) FirstFit [50] 3 1).1 := by
  decide

/-- C14, amended. In `measurePerformance` of `updated.c`, called with `numSizes > 0` sizes
in an array of at least `numSizes` elements (so that `i % numSizes` is defined and every read
`blockSizes[i % numSizes]` is inside the array), the loop runs all its `numBlocks`
iterations (none when `numBlocks <= 0`); iteration `k` makes one `allocateMemory` call for
the size `blockSizes[k % numSizes]`, followed by the `deallocateMemory` call for the returned
pointer exactly when that pointer is not `NULL`. So a `NULL` result is followed by no
deallocation, and the loop goes on with the next iteration. The loop of
`measurePerformance` in `Final_Project.c` does stop at the first `NULL` result. -/
theorem harness_skips_failed_allocation :
    (∀ (chain : List MemoryBlock) (strategy : String) (blockSizes : List Int)
      (numBlocks numSizes : Int), 0 < numSizes → numSizes ≤ blockSizes.length →
      ∃ requests : List (Int × Int), requests.length = numBlocks.toNat ∧
        (measurePerformance chain strategy blockSizes numBlocks numSizes).1 =
          requests.flatMap iterationCalls ∧
        ∀ k, k < numBlocks.toNat →
          ∃ size, blockSizes[(Int.tmod (k : Int) numSizes).toNat]? = some size ∧
            requests[k]?.map Prod.fst = some size) ∧
    (∀ (chain : List MemoryBlock) (strategy : String) (blockSize numBlocks : Int),
      StopsAtFailure (FinalProject.measurePerformance chain strategy blockSize numBlocks).1) := by
  constructor
  · intro chain strategy blockSizes numBlocks numSizes hpos hlen
    unfold measurePerformance
    obtain ⟨requests, h1, h2, h3⟩ :=
      measureLoop_requests strategy blockSizes numSizes numBlocks.toNat 0 chain
    refine ⟨requests, h1, h2, ?_⟩
    intro k hk
    obtain ⟨size, hs1, hs2⟩ := blockSizes_read_in_range blockSizes numSizes k hpos hlen
    refine ⟨size, hs1, ?_⟩
    have := h3 k hk
    rw [Nat.zero_add, hs2] at this
    exact this
  · intro chain strategy blockSize numBlocks
    unfold FinalProject.measurePerformance
    generalize numBlocks.toNat = n
    induction n generalizing chain with
    | zero => exact trivial
    | succ k ih =>
      unfold FinalProject.measureLoop
      simp only
      split
      · exact ⟨fun _ => rfl, trivial⟩
      · rename_i hne
        exact ⟨fun h => absurd h hne, ih _⟩

/-- Witness for C14: the call of `main`, `measurePerformance(allocator, "FirstFit",
blockSizes, 100, numSizes)` with the five sizes 50, 100, 200, 75, 125 on a fresh allocator of
capacity 1024. -/
theorem harness_skips_failed_allocation_witness :
    ((0 : Int) < 5 ∧ (5 : Int) ≤ ([50, 100, 200, 75, 125] : List Int).length) ∧
    ∃ requests : List (Int × Int), requests.length = (100 : Int).toNat ∧
      (measurePerformance (initializeMemoryAllocator MEMORY_SIZE) FirstFit
        [50, 100, 200, 75, 125] 100 5).1 = requests.flatMap iterationCalls ∧
      ∀ k, k < (100 : Int).toNat →
        ∃ size, ([50, 100, 200, 75, 125] : List Int)[(Int.tmod (k : Int) 5).toNat]? =
            some size ∧
          requests[k]?.map Prod.fst = some size :=
  ⟨by decide, harness_skips_failed_allocation.1 (initializeMemoryAllocator MEMORY_SIZE)
    FirstFit [50, 100, 200, 75, 125] 100 5 (by decide) (by decide)⟩

/-- C15, evaluated at the failing input: every call of `allocateMemory` and of
`deallocateMemory` walks the chain only between `pthread_mutex_lock` and
`pthread_mutex_unlock`, but `printMemoryBlocks`, here on the allocator made by
`initializeMemoryAllocator(1024)`, prints the chain after walking it without taking the
mutex. -/
theorem print_walks_without_lock :
    (∀ (strategy : String), lockDiscipline false (allocateMemoryEffects strategy) = true) ∧
    (∀ (chain : List MemoryBlock) (ptr : Int),
      lockDiscipline false (deallocateMemoryEffects chain ptr) = true) ∧
    printMemoryBlocks (initializeMemoryAllocator 1024) = [(0, 1024, false)] ∧
    lockDiscipline false printMemoryBlocksEffects = false := by
  refine ⟨?_, ?_, by decide, by decide⟩
  · intro strategy
    unfold allocateMemoryEffects
    split_ifs <;> decide
  · intro chain ptr
    unfold deallocateMemoryEffects
    split <;> decide


/-- C16 (coalescing terminates). For every chain, the loop of `coalesceMemory`, run one
iteration at a time from the head of the chain, exits within as many iterations as the chain
has blocks: it makes one iteration less than the number of blocks (none on an empty chain),
the chain at the exit is the result of `coalesceMemory`, and in it no two adjacent blocks
are both free. -/
theorem coalesce_terminates (chain : List MemoryBlock) :
    coalesceLoop chain.length { passed := [], remaining := chain } =
      some (chain.length - 1, coalesceMemory chain) ∧
    chain.length - 1 ≤ chain.length ∧
    NoAdjacentFree (coalesceMemory chain) := by
  refine ⟨?_, Nat.sub_le _ _, noAdjacentFree_coalesceMemory chain⟩
  cases chain with
  | nil => simp [coalesceLoop, coalesceIteration, coalesceMemory]
  | cons a rest =>
    rw [coalesceLoop_from rest a [] _ (by simp)]
    simp [coalesceMemory]


/-- C17 (stale token reuse). On a fresh allocator of capacity 1024, after one allocation of
100: `allocateMemory(200)` returns the token `t = 100`; `deallocateMemory(t)` frees that
block; a later `allocateMemory(50)` returns a block with the same start `t`; and a second
`deallocateMemory(t)` with the stale token takes the success branch and frees the newer
allocation, after which no allocated block starts at `t`. -/
theorem stale_token_reuse :
    ∃ (t : Int) (c1 c2 c3 : List MemoryBlock),
      allocateMemory (run 1024 [Op.alloc 100 FirstFit]) 200 FirstFit = (t, c1) ∧
      t ≠ NULL ∧
      deallocateMemory c1 t = { chain := c2, invalid := false } ∧
      allocateMemory c2 50 FirstFit = (t, c3) ∧
      (⟨t, 50, true⟩ : MemoryBlock) ∈ c3 ∧
      (deallocateMemory c3 t).invalid = false ∧
      (⟨t, 50, true⟩ : MemoryBlock) ∉ (deallocateMemory c3 t).chain ∧
      ∀ b ∈ (deallocateMemory c3 t).chain, b.start = t → b.allocated = false :=
  ⟨100, [⟨0, 100, true⟩, ⟨100, 200, true⟩, ⟨300, 724, false⟩],
    [⟨0, 100, true⟩, ⟨100, 924, false⟩],
    [⟨0, 100, true⟩, ⟨100, 50, true⟩, ⟨150, 874, false⟩], by decide⟩

/-- C18 (the precondition `size > 0` is not checked). On the fresh allocator of capacity
1024, `allocateMemory` with size 0 selects the free block, returns through the success path
and leaves the chain `[0,0,alloc][0,1024,free]`, which is not well formed: it has a block of
size 0 and two blocks with the same start. -/
theorem size_precondition_not_checked :
    ∃ (capacity : Int) (ops : List Op) (size : Int) (strategy : String),
      0 < capacity ∧ (∀ op ∈ ops, op.valid) ∧ size ≤ 0 ∧
      selectedBlock (run capacity ops) size strategy = some (0, ⟨0, 1024, false⟩) ∧
      (allocateMemory (run capacity ops) size strategy).2 =
        [⟨0, 0, true⟩, ⟨0, 1024, false⟩] ∧
      ¬ WellFormed capacity (allocateMemory (run capacity ops) size strategy).2 ∧
      (∃ b ∈ (allocateMemory (run capacity ops) size strategy).2, b.size ≤ 0) ∧
      ∃ (i j : Nat) (x y : MemoryBlock), i < j ∧
        (allocateMemory (run capacity ops) size strategy).2[i]? = some x ∧
        (allocateMemory (run capacity ops) size strategy).2[j]? = some y ∧
        x.start = y.start :=
  ⟨1024, [], 0, FirstFit, by decide, by decide, by decide, by decide, by decide, by decide,
    by decide, 0, 1, ⟨0, 0, true⟩, ⟨0, 1024, false⟩, by decide⟩

/-- C19 (an unknown strategy is a no-op). For every chain, every size and every strategy name
that is none of `"FirstFit"`, `"BestFit"` and `"WorstFit"`, `allocateMemory` selects no block,
returns `NULL` and leaves the chain as it is. -/
theorem unknown_strategy_noop (chain : List MemoryBlock) (size : Int) (strategy : String)
    (h1 : strategy ≠ FirstFit) (h2 : strategy ≠ BestFit) (h3 : strategy ≠ WorstFit) :
    allocateMemory chain size strategy = (NULL, chain) ∧
    selectedBlock chain size strategy = none := by
  simp [allocateMemory, selectedBlock, h1, h2, h3]

/-- Witness for C19: the name `"firstfit"`, which differs from `"FirstFit"` only in case, on a
chain with a free block that is large enough. -/
theorem unknown_strategy_noop_witness :
    (lowerCaseFirstFit ≠ FirstFit ∧ lowerCaseFirstFit ≠ BestFit ∧
      lowerCaseFirstFit ≠ WorstFit) ∧
    allocateMemory [⟨0, 100, true⟩, ⟨100, 924, false⟩] 50 lowerCaseFirstFit =
      (NULL, [⟨0, 100, true⟩, ⟨100, 924, false⟩]) ∧
    selectedBlock [⟨0, 100, true⟩, ⟨100, 924, false⟩] 50 lowerCaseFirstFit = none :=
  ⟨by decide, unknown_strategy_noop _ 50 lowerCaseFirstFit (by decide) (by decide) (by decide)⟩

end OSProject
